import Mathlib

/-!
Shallow embedding of src/plan_utils.py, the scriptural reference resolver
of the repository: book name tables, longest-match book lookup, citation
parsing, day-text normalization and locale-specific citation formatting.

Python strings are modelled as `List Char` (sequences of code points).
`str.strip()`, `str.lower()`, the two regular expressions of the source and
Python `dict` construction are embedded by the functions below; each
definition notes the source construct it mirrors.
-/

set_option maxRecDepth 100000

namespace PlanUtils

/-- Whitespace as recognised by `str.strip()` and `\s` on the ASCII range
(all whitespace occurring in the data handled here is ASCII). -/
def pyIsSpace (c : Char) : Bool :=
  c = ' ' || c = '\t' || c = '\n' || c = '\r' || c = '\x0b' || c = '\x0c'

/-- `str.lower()`, character-wise: ASCII uppercase letters are lowered, all
other characters (digits, punctuation, CJK) are fixed, which matches Python
on every character appearing in the book tables and the inputs considered. -/
def pyLower (s : List Char) : List Char := s.map Char.toLower

/-- `str.strip()`: remove leading and trailing whitespace. -/
def pyStrip (s : List Char) : List Char :=
  ((s.dropWhile pyIsSpace).reverse.dropWhile pyIsSpace).reverse

/-- The decimal digit characters. -/
def digitChar : Nat → Char
  | 0 => '0' | 1 => '1' | 2 => '2' | 3 => '3' | 4 => '4'
  | 5 => '5' | 6 => '6' | 7 => '7' | 8 => '8' | _ => '9'

/-- Fuel-indexed decimal rendering; the fuel only bounds the recursion
depth (dividing by ten each step) and is always taken large enough. -/
def natCharsAux (fuel : Nat) (n : Nat) : List Char :=
  match fuel with
  | 0 => []
  | fuel + 1 =>
    if n < 10 then [digitChar n]
    else natCharsAux fuel (n / 10) ++ [digitChar (n % 10)]

/-- Decimal rendering of a natural number, as Python `str(n)` respectively
f-string interpolation of a nonnegative `int` produces it. -/
def natChars (n : Nat) : List Char := natCharsAux (n + 1) n

/-- Numeric value of a digit character. -/
def digitVal (c : Char) : Nat := c.toNat - 48

/-- Python `int()` on a string of decimal digits. -/
def digitsToNat (ds : List Char) : Nat :=
  ds.foldl (fun a c => a * 10 + digitVal c) 0

/-- `str.split(sep)` for a one-character separator, keeping empty pieces
(Python semantics: `"".split(x) = [""]`). -/
def splitOnChar (sep : Char) : List Char → List (List Char)
  | [] => [[]]
  | c :: cs =>
    if c = sep then [] :: splitOnChar sep cs
    else
      match splitOnChar sep cs with
      | [] => [[c]]
      | h :: t => (c :: h) :: t

/-- `sep.join(parts)` on code-point lists. -/
def pyJoin (sep : List Char) : List (List Char) → List Char
  | [] => []
  | [x] => x
  | x :: xs => x ++ sep ++ pyJoin sep xs

/-- Simplified Chinese book names, `BOOK_CHINESE` of the source:
index 0 is a dummy, indices 1-66 are the books. -/
def BOOK_CHINESE : List (List Char) :=
  ([ "", "创世记", "出埃及记", "利未记", "民数记", "申命记", "约书亚记", "士师记",
    "路得记", "撒母耳记上", "撒母耳记下", "列王纪上", "列王纪下", "历代志上", "历代志下",
    "以斯拉记", "尼希米记", "以斯帖记", "约伯记", "诗篇", "箴言", "传道书", "雅歌",
    "以赛亚书", "耶利米书", "耶利米哀歌", "以西结书", "但以理书", "何西阿书", "约珥书",
    "阿摩司书", "俄巴底亚书", "约拿书", "弥迦书", "那鸿书", "哈巴谷书", "西番雅书",
    "哈该书", "撒迦利亚书", "玛拉基书", "马太福音", "马可福音", "路加福音", "约翰福音",
    "使徒行传", "罗马书", "哥林多前书", "哥林多后书", "加拉太书", "以弗所书", "腓立比书",
    "歌罗西书", "帖撒罗尼迦前书", "帖撒罗尼迦后书", "提摩太前书", "提摩太后书", "提多书",
    "腓利门书", "希伯来书", "雅各书", "彼得前书", "彼得后书", "约翰一书", "约翰二书",
    "约翰三书", "犹大书", "启示录" ] : List String).map String.toList

/-- English (ESV / standard) book names, `BOOK_ENGLISH` of the source. -/
def BOOK_ENGLISH : List (List Char) :=
  ([ "", "Genesis", "Exodus", "Leviticus", "Numbers", "Deuteronomy", "Joshua", "Judges",
    "Ruth", "1 Samuel", "2 Samuel", "1 Kings", "2 Kings", "1 Chronicles", "2 Chronicles",
    "Ezra", "Nehemiah", "Esther", "Job", "Psalms", "Proverbs", "Ecclesiastes", "Song of Solomon",
    "Isaiah", "Jeremiah", "Lamentations", "Ezekiel", "Daniel", "Hosea", "Joel",
    "Amos", "Obadiah", "Jonah", "Micah", "Nahum", "Habakkuk", "Zephaniah",
    "Haggai", "Zechariah", "Malachi", "Matthew", "Mark", "Luke", "John",
    "Acts", "Romans", "1 Corinthians", "2 Corinthians", "Galatians", "Ephesians", "Philippians",
    "Colossians", "1 Thessalonians", "2 Thessalonians", "1 Timothy", "2 Timothy", "Titus",
    "Philemon", "Hebrews", "James", "1 Peter", "2 Peter", "1 John", "2 John",
    "3 John", "Jude", "Revelation" ] : List String).map String.toList

/-- Traditional Chinese (zh_TW) book names, `BOOK_CHINESE_TW` of the source. -/
def BOOK_CHINESE_TW : List (List Char) :=
  ([ "", "創世記", "出埃及記", "利未記", "民數記", "申命記", "約書亞記", "士師記",
    "路得記", "撒母耳記上", "撒母耳記下", "列王紀上", "列王紀下", "歷代志上", "歷代志下",
    "以斯拉記", "尼希米記", "以斯帖記", "約伯記", "詩篇", "箴言", "傳道書", "雅歌",
    "以賽亞書", "耶利米書", "耶利米哀歌", "以西結書", "但以理書", "何西阿書", "約珥書",
    "阿摩司書", "俄巴底亞書", "約拿書", "彌迦書", "那鴻書", "哈巴谷書", "西番雅書",
    "哈該書", "撒迦利亞書", "瑪拉基書", "馬太福音", "馬可福音", "路加福音", "約翰福音",
    "使徒行傳", "羅馬書", "哥林多前書", "哥林多後書", "加拉太書", "以弗所書", "腓立比書",
    "歌羅西書", "帖撒羅尼迦前書", "帖撒羅尼迦後書", "提摩太前書", "提摩太後書", "提多書",
    "腓利門書", "希伯來書", "雅各書", "彼得前書", "彼得後書", "約翰一書", "約翰二書",
    "約翰三書", "猶大書", "啟示錄" ] : List String).map String.toList

/-- The key/value pairs of the source's `BOOK_INDEX` dict literal followed by
the pairs of the `BOOK_INDEX.update(...)` literal, in source order (duplicate
keys included; Python dict semantics are applied by the fold below). -/
def RAW_BOOK_INDEX : List (List Char × Nat) :=
  ([ ("1 Chronicles", 13), ("1 Corinthian", 46), ("1 Corinthians", 46),
    ("1 John", 62), ("1 Kings", 11), ("1 Peter", 60), ("1 Samuel", 9),
    ("1 Thessalonians", 52), ("1 Timothy", 54),
    ("2 Chronicles", 14), ("2 Corinthians", 47), ("2 John", 63),
    ("2 Kings", 12), ("2 Peter", 61), ("2 Samuel", 10), ("2 Thessalonians", 53),
    ("2 Timothy", 55), ("3 John", 64),
    ("Acts", 44), ("Amos", 30),
    ("Colossians", 51),
    ("Daniel", 27), ("Deuteronomy", 5),
    ("Ecclesiastes", 21), ("Ephesians", 49), ("Esther", 17), ("Exodus", 2),
    ("Ezekiel", 26), ("Ezra", 15),
    ("Galatians", 48), ("Genesis", 1),
    ("Habakkuk", 35), ("Haggai", 37), ("Hebrews", 58), ("Hosea", 28),
    ("Isaiah", 23),
    ("James", 59), ("Jeremiah", 24), ("Job", 18), ("Joel", 29), ("John", 43),
    ("Jonah", 32), ("Joshua", 6), ("Jude", 65), ("Judges", 7),
    ("Lamentations", 25), ("Leviticus", 3), ("Luke", 42),
    ("Malachi", 39), ("Mark", 41), ("Matthew", 40), ("Micah", 33),
    ("Nahum", 34), ("Nehemiah", 16), ("Numbers", 4),
    ("Obadiah", 31),
    ("Philippians", 50), ("Philemon", 57), ("Proverbs", 20),
    ("Psalm", 19), ("Psalms", 19),
    ("Revelation", 66), ("Romans", 45), ("Ruth", 8),
    ("Song of Solomon", 22), ("Song of Songs", 22),
    ("1 Sam", 9), ("2 Sam", 10), ("2Sam", 10), ("1 Kin", 11), ("2 Kin", 12),
    ("1 Chr", 13), ("2 Chr", 14), ("1 Cor", 46), ("2 Cor", 47),
    ("1 Thess", 52), ("2 Thess", 53), ("1 Tim", 54), ("2 Tim", 55),
    ("1 Pet", 60), ("2 Pet", 61), ("1 John", 62), ("2 John", 63), ("3 John", 64),
    ("Song of Sol", 22), ("Phil", 50), ("Phlm", 57),
    ("1Chr", 13), ("1Cor", 46), ("1Jn", 62), ("1Kgs", 11), ("1Pet", 60),
    ("1Sam", 9), ("1Thess", 52), ("1Tim", 54),
    ("2Chr", 14), ("2Cor", 47), ("2Jn", 63), ("2Kgs", 12), ("2Pet", 61),
    ("2Sam", 10), ("2Thess", 53), ("2Tim", 55), ("3Jn", 64),
    ("Acts", 44), ("Amos", 30), ("Col", 51), ("Dan", 27), ("Deut", 5),
    ("Eccl", 21), ("Eph", 49), ("Esth", 17), ("Exod", 2), ("Ezek", 26),
    ("Ezra", 15), ("Gal", 48), ("Gen", 1), ("Hab", 35), ("Hag", 37),
    ("Heb", 58), ("Hos", 28), ("Isa", 23), ("Jas", 59), ("Jer", 24),
    ("Job", 18), ("Joel", 29), ("John", 43), ("Jonah", 32), ("Josh", 6),
    ("Jude", 65), ("Judg", 7), ("Lam", 25), ("Lev", 3), ("Luke", 42),
    ("Mal", 39), ("Mark", 41), ("Matt", 40), ("Mic", 33), ("Nah", 34),
    ("Neh", 16), ("Num", 4), ("Obad", 31), ("Phil", 50), ("Phlm", 57),
    ("Prov", 20), ("Ps", 19), ("Rev", 66), ("Rom", 45), ("Ruth", 8),
    ("Song", 22), ("Zech", 38), ("Zeph", 36) ] : List (String × Nat)).map
    (fun e => (e.1.toList, e.2))

/-- One Python `dict` insertion: an existing key keeps its position and gets
the new value, a new key is appended. -/
def dictInsert (d : List (List Char × Nat)) (k : List Char) (v : Nat) :
    List (List Char × Nat) :=
  if d.any (fun e => e.1 == k) then d.map (fun e => if e.1 == k then (k, v) else e)
  else d ++ [(k, v)]

/-- The source's `BOOK_INDEX` dict (insertion-ordered association list). -/
def BOOK_INDEX : List (List Char × Nat) :=
  RAW_BOOK_INDEX.foldl (fun d e => dictInsert d e.1 e.2) []

/-- `d[k]` lookup on the embedded dict. -/
def dictGet (d : List (List Char × Nat)) (k : List Char) : Option Nat :=
  (d.find? (fun e => e.1 == k)).map (·.2)

/-- Stable insertion keeping earlier elements of equal length first. -/
def insertByLen (x : List Char) : List (List Char) → List (List Char)
  | [] => [x]
  | y :: ys => if x.length < y.length then y :: insertByLen x ys else x :: y :: ys

/-- Stable sort by descending string length, the semantics of
`sorted(keys, key=len, reverse=True)` (Python's sort is stable and
`reverse=True` keeps equal-length keys in dict insertion order). -/
def sortByLenDesc : List (List Char) → List (List Char)
  | [] => []
  | x :: xs => insertByLen x (sortByLenDesc xs)

/-- `_SORTED_NAMES` of the source. -/
def SORTED_NAMES : List (List Char) := sortByLenDesc (BOOK_INDEX.map (·.1))

/-- The match test of `_find_book`:
`s.startswith(name) or s.lower().startswith(name.lower())`. -/
def nameMatches (s name : List Char) : Bool :=
  name.isPrefixOf s || (pyLower name).isPrefixOf (pyLower s)

/-- The scan of `_find_book` over the sorted name list. -/
def findBookAux : List (List Char) → List Char → Option Nat × List Char
  | [], s => (none, s)
  | n :: rest, s =>
    if nameMatches s n then (dictGet BOOK_INDEX n, pyStrip (s.drop n.length))
    else findBookAux rest s

/-- `_find_book(s)`: strip `s`, then return the first (longest-first) name
that `s` starts with, case-insensitively, with book number and remainder;
`(none, stripped s)` when no name matches. -/
def find_book (s : List Char) : Option Nat × List Char :=
  findBookAux SORTED_NAMES (pyStrip s)

/-- The five lowered characters of the case-insensitive delimiter
alternative ` and ` of `re.split(r"[,;]| and ", text, flags=re.I)`. -/
def AND_WORD : List Char := [' ', 'a', 'n', 'd', ' ']

/-- Whether the regex alternative ` and ` (case-insensitive) matches at the
start of `s`. -/
def andTest (s : List Char) : Bool :=
  match s with
  | c1 :: c2 :: c3 :: c4 :: c5 :: _ => [c1, c2, c3, c4, c5].map Char.toLower == AND_WORD
  | _ => false

/-- The left-to-right scan of `re.split(r"[,;]| and ", text, flags=re.I)`:
at each position a single `,` or `;` splits, otherwise a case-insensitive
five-character window ` and ` splits, otherwise the character is kept.
Each step consumes at least one character, so fuel above the remaining
length (always supplied) never runs out. -/
def splitRefsGo (fuel : Nat) (acc s : List Char) : List (List Char) :=
  match fuel with
  | 0 => [acc.reverse]
  | fuel + 1 =>
    match s with
    | [] => [acc.reverse]
    | c :: cs =>
      if c = ',' || c = ';' then acc.reverse :: splitRefsGo fuel [] cs
      else if andTest (c :: cs) then acc.reverse :: splitRefsGo fuel [] ((c :: cs).drop 5)
      else splitRefsGo fuel (c :: acc) cs

/-- `re.split(r"[,;]| and ", text, flags=re.I)`. -/
def splitRefs (s : List Char) : List (List Char) := splitRefsGo (s.length + 1) [] s

/-- Group extraction of
`re.match(r"(\d+)(?:\s*[-–]\s*(\d+))?(?::\d+(?:-\d+)?)?", rest)`:
`none` when the match fails (no leading digit); otherwise groups 1 and 2,
with group 2 defaulting to group 1 — which is everything `parse_ref` reads
from the match object; the trailing verse alternative `(?::\d+(?:-\d+)?)?`
is non-capturing and never affects whether the match succeeds.  The range
separator class `[-–]` of the source holds the ASCII hyphen and the
en-dash only. -/
def matchChapter (r : List Char) : Option (Nat × Nat) :=
  match r.takeWhile Char.isDigit with
  | [] => none
  | d :: ds =>
    match (r.dropWhile Char.isDigit).dropWhile pyIsSpace with
    | c :: rest =>
      if c = '-' || c = '–' then
        match (rest.dropWhile pyIsSpace).takeWhile Char.isDigit with
        | [] => some (digitsToNat (d :: ds), digitsToNat (d :: ds))
        | e :: es => some (digitsToNat (d :: ds), digitsToNat (e :: es))
      else some (digitsToNat (d :: ds), digitsToNat (d :: ds))
    | [] => some (digitsToNat (d :: ds), digitsToNat (d :: ds))

/-- The body of the per-sub-clause loop of `parse_ref`: strip the part,
find a book, and resolve the remainder to `(book, chapter)` pairs
(`range(start, end + 1)` in the source; `List.range' a (e + 1 - a)` has
exactly Python's empty-when-reversed semantics). -/
def refPairs (part0 : List Char) : List (Nat × Nat) :=
  let part := pyStrip part0
  match part with
  | [] => []
  | _ :: _ =>
    match find_book part with
    | (none, _) => []
    | (some b, rest0) =>
      let rest := pyStrip rest0
      match rest with
      | [] => [(b, 1)]
      | _ :: _ =>
        match matchChapter rest with
        | none => []
        | some (a, e) => (List.range' a (e + 1 - a)).map (fun ch => (b, ch))

/-- `parse_ref(text)`: split into sub-clauses and concatenate their pairs. -/
def parse_ref (text : List Char) : List (Nat × Nat) :=
  (splitRefs text).flatMap refPairs

/-- The en-dash/em-dash normalization
`text.replace("–", "-").replace("—", "-")` of `parse_day_text`. -/
def dashFix (c : Char) : Char := if c = '–' || c = '—' then '-' else c

/-- The `(book, chapter)` pairs scanned by `parse_day_text` before
deduplication: dash normalization, the split on `\s*;\s*` (embedded as the
plain split on `;` composed with the per-block `strip()` the source applies
right after — the two pipelines strip exactly the same whitespace), then
`parse_ref` on each non-empty block. -/
def dayPairs (text : List Char) : List (Nat × Nat) :=
  ((splitOnChar ';' (text.map dashFix)).map pyStrip).flatMap
    (fun block =>
      match block with
      | [] => []
      | _ :: _ => parse_ref block)

/-- The interchange rendering `f"{ref[0]}:{ref[1]}"`. -/
def interchange (p : Nat × Nat) : List Char :=
  natChars p.1 ++ ':' :: natChars p.2

/-- One step of the seen-set/output loop of `parse_day_text`. -/
def dedupStep (acc : List (Nat × Nat) × List (List Char)) (p : Nat × Nat) :
    List (Nat × Nat) × List (List Char) :=
  if p ∈ acc.1 then acc else (p :: acc.1, acc.2 ++ [interchange p])

/-- `parse_day_text(text)`: scan all pairs, keep the first occurrence of
each, render as interchange strings. -/
def parse_day_text (text : List Char) : List (List Char) :=
  ((dayPairs text).foldl dedupStep ([], [])).2

/-- `x.split(":")` followed by the two `int(...)` calls of
`_chapters_to_str`; `none` models the exceptions Python raises when the
string does not split into exactly two integer pieces (Python `int` also
tolerates surrounding whitespace and a sign, which interchange strings
never carry). -/
def parsePair (s : List Char) : Option (Nat × Nat) :=
  match splitOnChar ':' s with
  | [b, c] =>
    match b, c with
    | b1 :: bs, c1 :: cs =>
      if (b1 :: bs).all Char.isDigit && (c1 :: cs).all Char.isDigit then
        some (digitsToNat (b1 :: bs), digitsToNat (c1 :: cs))
      else none
    | _, _ => none
  | _ => none

/-- All-or-nothing parse of the chapter strings consumed by
`_chapters_to_str` (Python fails on the first ill-formed entry; the model
fails on the whole list). -/
def seqParse : List (List Char) → Option (List (Nat × Nat))
  | [] => some []
  | s :: rest =>
    match parsePair s, seqParse rest with
    | some p, some ps => some (p :: ps)
    | _, _ => none

/-- The inner `while` loop of `_chapters_to_str`: absorb following entries
while the book matches and the chapter is exactly one above the last
absorbed chapter.  Returns the absorbed chapters and the remaining list. -/
def greedyRun (b last : Nat) : List (Nat × Nat) → List Nat × List (Nat × Nat)
  | [] => ([], [])
  | (b2, c2) :: rest =>
    if b2 = b ∧ c2 = last + 1 then
      let r := greedyRun b c2 rest
      (c2 :: r.1, r.2)
    else ([], (b2, c2) :: rest)

/-- The outer `while` loop of `_chapters_to_str`: chop the pair list into
greedy consecutive same-book runs `(book, chapters)`.  Fuel above the list
length (always supplied) never runs out, since the run head is always
consumed. -/
def groupRunsGo (fuel : Nat) (l : List (Nat × Nat)) : List (Nat × List Nat) :=
  match fuel with
  | 0 => []
  | fuel + 1 =>
    match l with
    | [] => []
    | (b, c) :: rest =>
      (b, c :: (greedyRun b c rest).1) :: groupRunsGo fuel (greedyRun b c rest).2

/-- The run decomposition computed by `_chapters_to_str`. -/
def groupRuns (l : List (Nat × Nat)) : List (Nat × List Nat) :=
  groupRunsGo (l.length + 1) l

/-- Rendering of one run, mirroring the `if`/`elif`/`else` of
`_chapters_to_str` (the book name falls back to the number when out of
table range; `sp` is `" "` when `space_before_ch` else `""`).  The `[]`
chapter case never arises (runs are built non-empty); Python would raise
there, the model returns the bare name. -/
def renderGroup (book_names : List (List Char)) (sp joiner : List Char)
    (g : Nat × List Nat) : List Char :=
  let name := if g.1 < book_names.length then book_names.getD g.1 [] else natChars g.1
  match g.2 with
  | [] => name
  | [c] => name ++ sp ++ natChars c
  | c :: cs =>
    match (c :: cs).getLast? with
    | none => name
    | some lastc =>
      if c :: cs = List.range' c (lastc + 1 - c) then
        name ++ sp ++ natChars c ++ '-' :: natChars lastc
      else
        name ++ sp ++ pyJoin joiner ((c :: cs).map natChars)

/-- `_chapters_to_str(chapters, book_names, sep, joiner, space_before_ch)`.
`none` models the exception raised on an entry that is not a well-formed
interchange string. -/
def chaptersToStr (chapters : List (List Char)) (book_names : List (List Char))
    (sep : List Char) (joiner : List Char) (space_before_ch : Bool) :
    Option (List Char) :=
  match chapters with
  | [] => some []
  | _ :: _ =>
    match seqParse chapters with
    | none => none
    | some ps =>
      let sp : List Char := if space_before_ch then [' '] else []
      some (pyJoin sep ((groupRuns ps).map (renderGroup book_names sp joiner)))

/-- `chapters_to_chinese(chapters, book_names)` (fullwidth semicolon
separator, enumeration comma joiner, no space before the chapter). -/
def chapters_to_chinese (chapters book_names : List (List Char)) :
    Option (List Char) :=
  chaptersToStr chapters book_names ("；".toList) ("、".toList) false

/-- `chapters_to_english(chapters)`. -/
def chapters_to_english (chapters : List (List Char)) : Option (List Char) :=
  chaptersToStr chapters BOOK_ENGLISH ("; ".toList) (", ".toList) true

/-- The ten decimal digit characters. -/
def DIGITS : List Char := ['0', '1', '2', '3', '4', '5', '6', '7', '8', '9']

/-- The characters that may follow a book name in a rendered chapter
specification: digits, the hyphen and the en-dash. -/
def VCHARS : List Char := DIGITS ++ ['-', '–']

/-- The English display name of book `b` (index into `BOOK_ENGLISH`). -/
def englishName (b : Nat) : List Char := BOOK_ENGLISH.getD b []

/-- The books whose full English display name is a key of `BOOK_INDEX`.
Books 36 (Zephaniah), 38 (Zechariah) and 56 (Titus) are excluded: the
source's `BOOK_INDEX` has no entry for those three display names (and no
entry at all mapping to 56). -/
def goodBook (b : Nat) : Bool :=
  (1 ≤ b) && (b ≤ 66) && !(b == 36) && !(b == 38) && !(b == 56)

/-- A rest-independent over-approximation of "some digit-continued text
starting with `name ++ ' '` matches the table name `n` case-insensitively":
used to discharge, by computation, that no table name preceding `name` in
`SORTED_NAMES` can match such a text. -/
def canMatch (n name : List Char) : Bool :=
  if n.length ≤ name.length then (pyLower n).isPrefixOf (pyLower name)
  else
    ((pyLower n).take (name.length + 1) == pyLower name ++ [' ']) &&
    (n.length == name.length + 1 || ((pyLower n).getD (name.length + 1) ' ').isDigit)

/-- No sub-clause delimiter of `re.split(r"[,;]| and ", ...)` occurs
anywhere in the string. -/
def noDelimB : List Char → Bool
  | [] => true
  | c :: cs => !(c = ',' || c = ';') && !andTest (c :: cs) && noDelimB cs

/-- No case-insensitive ` and ` window starts at any position. -/
def noAndB : List Char → Bool
  | [] => true
  | c :: cs => !andTest (c :: cs) && noAndB cs

/-- The pair-level content of the dedup loop of `parse_day_text`: drop
pairs already seen, keep the first occurrence of each new pair. -/
def dedupPairs (seen : List (Nat × Nat)) : List (Nat × Nat) → List (Nat × Nat)
  | [] => []
  | p :: ps => if p ∈ seen then dedupPairs seen ps else p :: dedupPairs (p :: seen) ps

/-- Position of the first occurrence of a pair in a list (spec-side notion
used to state order preservation; length of the list when absent). -/
def idxOf (p : Nat × Nat) : List (Nat × Nat) → Nat
  | [] => 0
  | q :: l => if q = p then 0 else idxOf p l + 1

/-!  ## Theorems  -/

theorem andTest_length {s : List Char} (h : andTest s = true) : 5 ≤ s.length := by
  match s, h with
  | c1 :: c2 :: c3 :: c4 :: c5 :: rest, _ => simp [List.length_cons]

theorem greedyRun_rest_length (b last : Nat) :
    ∀ l : List (Nat × Nat), (greedyRun b last l).2.length ≤ l.length := by
  intro l
  induction l generalizing last with
  | nil => simp [greedyRun]
  | cons p rest ih =>
    obtain ⟨b2, c2⟩ := p
    by_cases hc : b2 = b ∧ c2 = last + 1
    · simp only [greedyRun, if_pos hc]
      exact le_trans (ih c2) (Nat.le_succ _)
    · simp only [greedyRun, if_neg hc]
      exact le_rfl

/-!  ### Decimal rendering  -/

theorem digitChar_mem {d : Nat} (h : d < 10) : digitChar d ∈ DIGITS := by
  interval_cases d <;> decide

theorem digit_facts {c : Char} (h : c ∈ DIGITS) :
    c.isDigit = true ∧ Char.toLower c = c ∧ pyIsSpace c = false ∧
    c ≠ ',' ∧ c ≠ ';' ∧ c ≠ ':' ∧ c ≠ '-' ∧ c ≠ '–' ∧ c ≠ '—' ∧
    c ≠ 'a' ∧ c ≠ 'n' ∧ c ≠ 'd' ∧ c ≠ ' ' := by
  fin_cases h <;> exact (by decide)

theorem digitVal_digitChar {d : Nat} (h : d < 10) : digitVal (digitChar d) = d := by
  interval_cases d <;> decide

theorem natCharsAux_fuel :
    ∀ f1 f2 n, n < f1 → n < f2 → natCharsAux f1 n = natCharsAux f2 n := by
  intro f1
  induction f1 with
  | zero => intro f2 n h; omega
  | succ g ih =>
    intro f2 n h1 h2
    match f2, h2 with
    | f2' + 1, _ =>
      simp only [natCharsAux]
      by_cases hn : n < 10
      · simp [hn]
      · simp only [hn, if_false]
        have hd : n / 10 < n := Nat.div_lt_self (by omega) (by omega)
        rw [ih f2' (n / 10) (by omega) (by omega)]

theorem natChars_eq (n : Nat) :
    natChars n =
      if n < 10 then [digitChar n] else natChars (n / 10) ++ [digitChar (n % 10)] := by
  show natCharsAux (n + 1) n = _
  simp only [natCharsAux]
  by_cases hn : n < 10
  · simp [hn]
  · simp only [hn, if_false]
    have hd : n / 10 < n := Nat.div_lt_self (by omega) (by omega)
    rw [natCharsAux_fuel n (n / 10 + 1) (n / 10) (by omega) (by omega)]
    rfl

theorem natChars_ne_nil (n : Nat) : natChars n ≠ [] := by
  rw [natChars_eq]
  by_cases hn : n < 10
  · simp [hn]
  · simp [hn]

theorem natChars_mem {n : Nat} : ∀ c ∈ natChars n, c ∈ DIGITS := by
  induction n using Nat.strong_induction_on with
  | _ n ih =>
    intro c hc
    rw [natChars_eq] at hc
    by_cases hn : n < 10
    · rw [if_pos hn] at hc
      simp at hc
      exact hc ▸ digitChar_mem hn
    · rw [if_neg hn] at hc
      rcases List.mem_append.1 hc with h | h
      · exact ih (n / 10) (Nat.div_lt_self (by omega) (by omega)) c h
      · simp at h
        exact h ▸ digitChar_mem (Nat.mod_lt _ (by omega))

theorem natChars_foldl (n : Nat) :
    ∀ acc, (natChars n).foldl (fun a c => a * 10 + digitVal c) acc =
      acc * 10 ^ (natChars n).length + n := by
  induction n using Nat.strong_induction_on with
  | _ n ih =>
    intro acc
    rw [natChars_eq]
    by_cases hn : n < 10
    · simp [hn, List.foldl, digitVal_digitChar hn]
    · rw [if_neg hn, List.foldl_append, List.length_append,
        ih (n / 10) (Nat.div_lt_self (by omega) (by omega)) acc]
      simp only [List.foldl, List.length_cons, List.length_nil]
      rw [digitVal_digitChar (Nat.mod_lt _ (by omega))]
      have : 10 ^ ((natChars (n / 10)).length + (0 + 1)) =
          10 ^ (natChars (n / 10)).length * 10 := by ring
      rw [this]
      have hmod := Nat.div_add_mod n 10
      ring_nf
      omega

theorem digitsToNat_natChars (n : Nat) : digitsToNat (natChars n) = n := by
  have := natChars_foldl n 0
  simpa [digitsToNat] using this

theorem natChars_head_digit {n : Nat} :
    ∃ c cs, natChars n = c :: cs ∧ c ∈ DIGITS := by
  obtain ⟨c, cs, h⟩ := List.exists_cons_of_ne_nil (natChars_ne_nil n)
  exact ⟨c, cs, h, natChars_mem c (h ▸ List.mem_cons_self c cs)⟩

/-!  ### Stripping  -/

theorem dropWhile_head_not {p : Char → Bool} {s : List Char}
    (h : ∀ c, s.head? = some c → p c = false) : s.dropWhile p = s := by
  cases s with
  | nil => rfl
  | cons a t =>
    rw [List.dropWhile_cons, h a rfl]
    simp

theorem pyStrip_no_ws {s : List Char}
    (h1 : ∀ c, s.head? = some c → pyIsSpace c = false)
    (h2 : ∀ c, s.getLast? = some c → pyIsSpace c = false) : pyStrip s = s := by
  unfold pyStrip
  rw [dropWhile_head_not h1]
  rw [dropWhile_head_not (by simpa using h2)]
  exact List.reverse_reverse s

theorem pyStrip_cons_space (s : List Char) : pyStrip (' ' :: s) = pyStrip s := by
  unfold pyStrip
  rw [List.dropWhile_cons]
  simp [pyIsSpace]

/-!  ### Splitting on a character  -/

theorem splitOnChar_ne_nil (sep : Char) (s : List Char) : splitOnChar sep s ≠ [] := by
  induction s with
  | nil => simp [splitOnChar]
  | cons c cs ih =>
    rw [splitOnChar]
    by_cases hc : c = sep
    · simp [hc]
    · simp only [hc, if_false]
      cases h : splitOnChar sep cs with
      | nil => simp
      | cons x t => simp

theorem splitOnChar_not_mem {sep : Char} {s : List Char} (h : sep ∉ s) :
    splitOnChar sep s = [s] := by
  induction s with
  | nil => rfl
  | cons c cs ih =>
    have hc : c ≠ sep := fun he => h (he ▸ List.mem_cons_self c cs)
    have hcs : sep ∉ cs := fun hm => h (List.mem_cons_of_mem c hm)
    rw [splitOnChar, if_neg hc, ih hcs]

theorem splitOnChar_append {sep : Char} {u v : List Char} (h : sep ∉ u) :
    splitOnChar sep (u ++ sep :: v) = u :: splitOnChar sep v := by
  induction u with
  | nil => simp [splitOnChar]
  | cons c cs ih =>
    have hc : c ≠ sep := fun he => h (he ▸ List.mem_cons_self c cs)
    have hcs : sep ∉ cs := fun hm => h (List.mem_cons_of_mem c hm)
    rw [List.cons_append, splitOnChar, if_neg hc, ih hcs]

/-!  ### Interchange strings  -/

theorem parsePair_interchange (p : Nat × Nat) : parsePair (interchange p) = some p := by
  obtain ⟨b, c⟩ := p
  have hb : ':' ∉ natChars b := fun hm => ((digit_facts (natChars_mem _ hm)).2.2.2.2.2.1) rfl
  unfold interchange parsePair
  rw [splitOnChar_append hb]
  have hc : ':' ∉ natChars c := fun hm => ((digit_facts (natChars_mem _ hm)).2.2.2.2.2.1) rfl
  rw [splitOnChar_not_mem hc]
  obtain ⟨b1, bs, hbs, _⟩ := natChars_head_digit (n := b)
  obtain ⟨c1, cs, hcs, _⟩ := natChars_head_digit (n := c)
  rw [hbs, hcs]
  simp only
  have hall1 : (b1 :: bs).all Char.isDigit = true := by
    rw [List.all_eq_true]
    intro x hx
    exact (digit_facts (natChars_mem x (hbs ▸ hx))).1
  have hall2 : (c1 :: cs).all Char.isDigit = true := by
    rw [List.all_eq_true]
    intro x hx
    exact (digit_facts (natChars_mem x (hcs ▸ hx))).1
  rw [hall1, hall2]
  simp only [Bool.and_self, if_true]
  rw [← hbs, ← hcs, digitsToNat_natChars, digitsToNat_natChars]

theorem interchange_inj : Function.Injective interchange := by
  intro p q h
  have h1 := parsePair_interchange p
  rw [h, parsePair_interchange q] at h1
  exact (Option.some_inj.1 h1).symm

/-!  ### The sub-clause splitter  -/

theorem andTest_parts {c1 c2 c3 c4 c5 : Char} {rest : List Char}
    (h : andTest (c1 :: c2 :: c3 :: c4 :: c5 :: rest) = true) :
    Char.toLower c1 = ' ' ∧ Char.toLower c2 = 'a' ∧ Char.toLower c3 = 'n' ∧
    Char.toLower c4 = 'd' ∧ Char.toLower c5 = ' ' := by
  simp only [andTest, AND_WORD, List.map_cons, List.map_nil, beq_iff_eq,
    List.cons.injEq, and_true] at h
  exact ⟨h.1, h.2.1, h.2.2.1, h.2.2.2.1, h.2.2.2.2⟩

theorem andTest_append5 {u : List Char} (hu : 5 ≤ u.length) (v : List Char) :
    andTest (u ++ v) = andTest u := by
  match u, hu with
  | c1 :: c2 :: c3 :: c4 :: c5 :: rest, _ => rfl

theorem splitRefsGo_clean :
    ∀ fuel s acc, s.length < fuel → noDelimB s = true →
      splitRefsGo fuel acc s = [acc.reverse ++ s] := by
  intro fuel
  induction fuel with
  | zero => intro s acc h; omega
  | succ f ih =>
    intro s acc hlen hclean
    match s with
    | [] => simp [splitRefsGo]
    | c :: cs =>
      rw [noDelimB] at hclean
      simp only [Bool.and_eq_true, Bool.not_eq_true'] at hclean
      obtain ⟨⟨h1, h2⟩, h3⟩ := hclean
      rw [splitRefsGo, if_neg (by simp [h1]), if_neg (by simp [h2])]
      rw [ih cs (c :: acc) (by simp at hlen ⊢; omega) h3]
      simp

theorem splitRefs_clean {s : List Char} (h : noDelimB s = true) : splitRefs s = [s] := by
  have := splitRefsGo_clean (s.length + 1) s [] (by omega) h
  simpa [splitRefs] using this

theorem noDelimB_of {s : List Char}
    (h1 : ∀ c ∈ s, c ≠ ',' ∧ c ≠ ';')
    (h2 : ∀ t, t <:+ s → andTest t = false) : noDelimB s = true := by
  induction s with
  | nil => rfl
  | cons c cs ih =>
    rw [noDelimB]
    have hc := h1 c (List.mem_cons_self c cs)
    have hw := h2 (c :: cs) (List.suffix_refl _)
    rw [hw]
    have : noDelimB cs = true := by
      refine ih (fun x hx => h1 x (List.mem_cons_of_mem c hx)) ?_
      intro t ht
      exact h2 t (ht.trans (List.suffix_cons c cs))
    rw [this]
    simp [hc.1, hc.2]

theorem noAndB_suffix {u t : List Char} (h : noAndB u = true) (hs : t <:+ u) :
    t = [] ∨ andTest t = false := by
  induction u with
  | nil => left; exact List.suffix_nil.1 hs
  | cons c cs ih =>
    rw [noAndB, Bool.and_eq_true] at h
    rcases List.suffix_cons_iff.1 hs with rfl | hs'
    · right
      simpa using h.1
    · exact ih h.2 hs'

theorem suffix_append_split {t u v : List Char} (h : t <:+ u ++ v) :
    t <:+ v ∨ ∃ u1, u1 ≠ [] ∧ u1 <:+ u ∧ t = u1 ++ v := by
  induction u with
  | nil => left; simpa using h
  | cons a u' ih =>
    rw [List.cons_append, List.suffix_cons_iff] at h
    rcases h with rfl | h'
    · right
      exact ⟨a :: u', by simp, List.suffix_refl _, by simp⟩
    · rcases ih h' with hl | ⟨u1, hne, hsuf, rfl⟩
      · left; exact hl
      · right
        exact ⟨u1, hne, hsuf.trans (List.suffix_cons a u'), rfl⟩

theorem vchar_facts {c : Char} (h : c ∈ VCHARS) :
    Char.toLower c = c ∧ pyIsSpace c = false ∧
    c ≠ ',' ∧ c ≠ ';' ∧ c ≠ 'a' ∧ c ≠ 'n' ∧ c ≠ 'd' ∧ c ≠ ' ' := by
  fin_cases h <;> exact (by decide)

theorem andTest_vchars {v : List Char} (hv : ∀ c ∈ v, c ∈ VCHARS) :
    andTest v = false := by
  match v with
  | [] => rfl
  | [c1] => rfl
  | [c1, c2] => rfl
  | [c1, c2, c3] => rfl
  | [c1, c2, c3, c4] => rfl
  | c1 :: c2 :: c3 :: c4 :: c5 :: rest =>
    have hf := vchar_facts (hv c1 (by simp))
    cases hA : andTest (c1 :: c2 :: c3 :: c4 :: c5 :: rest)
    · rfl
    · have hp := (andTest_parts hA).1
      rw [hf.1] at hp
      exact absurd hp hf.2.2.2.2.2.2.2

theorem andTest_straddle {u v : List Char} (hu : u ≠ []) (hu4 : u.length ≤ 4)
    (hv : ∀ c ∈ v, c ∈ VCHARS) : andTest (u ++ v) = false := by
  match u, hu, hu4 with
  | [a], _, _ =>
    match v with
    | [] => rfl
    | [v1] => rfl
    | [v1, v2] => rfl
    | [v1, v2, v3] => rfl
    | v1 :: v2 :: v3 :: v4 :: rest =>
      have hf := vchar_facts (hv v1 (by simp))
      cases hA : andTest ([a] ++ v1 :: v2 :: v3 :: v4 :: rest)
      · rfl
      · have hp := (andTest_parts hA).2.1
        rw [hf.1] at hp
        exact absurd hp hf.2.2.2.2.1
  | [a, b], _, _ =>
    match v with
    | [] => rfl
    | [v1] => rfl
    | [v1, v2] => rfl
    | v1 :: v2 :: v3 :: rest =>
      have hf := vchar_facts (hv v1 (by simp))
      cases hA : andTest ([a, b] ++ v1 :: v2 :: v3 :: rest)
      · rfl
      · have hp := (andTest_parts hA).2.2.1
        rw [hf.1] at hp
        exact absurd hp hf.2.2.2.2.2.1
  | [a, b, c], _, _ =>
    match v with
    | [] => rfl
    | [v1] => rfl
    | v1 :: v2 :: rest =>
      have hf := vchar_facts (hv v1 (by simp))
      cases hA : andTest ([a, b, c] ++ v1 :: v2 :: rest)
      · rfl
      · have hp := (andTest_parts hA).2.2.2.1
        rw [hf.1] at hp
        exact absurd hp hf.2.2.2.2.2.2.1
  | [a, b, c, d], _, _ =>
    match v with
    | [] => rfl
    | v1 :: rest =>
      have hf := vchar_facts (hv v1 (by simp))
      cases hA : andTest ([a, b, c, d] ++ v1 :: rest)
      · rfl
      · have hp := (andTest_parts hA).2.2.2.2
        rw [hf.1] at hp
        exact absurd hp hf.2.2.2.2.2.2.2

/-!  ### The book matcher  -/

theorem isPrefixOf_eq {u v : List Char} : u.isPrefixOf v = true ↔ u <+: v := by
  simp

theorem nameMatches_lower {s n : List Char} (h : nameMatches s n = true) :
    pyLower n <+: pyLower s := by
  rw [nameMatches, Bool.or_eq_true] at h
  rcases h with h | h
  · exact (isPrefixOf_eq.1 h).map Char.toLower
  · exact isPrefixOf_eq.1 h

theorem prefix_of_append_short {u v w : List Char} (h : u <+: v ++ w)
    (hl : u.length ≤ v.length) : u <+: v :=
  List.prefix_iff_eq_take.2
    ((List.prefix_iff_eq_take.1 h).trans (List.take_append_of_le_length hl))

theorem IsPrefix_take_eq {u s : List Char} (h : u <+: s) {k : Nat}
    (hk : k ≤ u.length) : u.take k = s.take k := by
  have h1 := List.prefix_iff_eq_take.1 h
  calc u.take k = (s.take u.length).take k := by rw [← h1]
    _ = s.take (min k u.length) := List.take_take k u.length s
    _ = s.take k := by rw [Nat.min_eq_left hk]

theorem IsPrefix_getD_eq {u s : List Char} (h : u <+: s) {i : Nat}
    (hi : i < u.length) (d : Char) : u.getD i d = s.getD i d := by
  obtain ⟨t, rfl⟩ := h
  rw [List.getD_eq_getElem?_getD, List.getD_eq_getElem?_getD,
    List.getElem?_append_left hi]

theorem pyLower_append (u v : List Char) :
    pyLower (u ++ v) = pyLower u ++ pyLower v := List.map_append _ u v

theorem pyLower_length (u : List Char) : (pyLower u).length = u.length :=
  List.length_map u _

theorem canMatch_of_match {n name : List Char} {c : Char} {rs : List Char}
    (hc : c ∈ DIGITS)
    (h : nameMatches (name ++ ' ' :: c :: rs) n = true) : canMatch n name = true := by
  have hpre := nameMatches_lower h
  have hlc : Char.toLower c = c := (digit_facts hc).2.1
  have hbig : pyLower (name ++ ' ' :: c :: rs) =
      (pyLower name ++ [' ']) ++ c :: pyLower rs := by
    rw [pyLower_append, List.append_assoc]
    simp only [pyLower, List.map_cons, hlc]
    rfl
  rw [hbig] at hpre
  have hlenA : (pyLower name ++ [' ']).length = name.length + 1 := by
    simp [pyLower_length]
  unfold canMatch
  by_cases hle : n.length ≤ name.length
  · rw [if_pos hle]
    have h1 : pyLower n <+: pyLower name ++ ([' '] ++ c :: pyLower rs) := by
      rwa [← List.append_assoc]
    have h2 := prefix_of_append_short h1 (by rw [pyLower_length, pyLower_length]; exact hle)
    exact isPrefixOf_eq.2 h2
  · rw [if_neg hle]
    push_neg at hle
    have hnlen : name.length + 1 ≤ (pyLower n).length := by
      rw [pyLower_length]; omega
    have htake : (pyLower n).take (name.length + 1) = pyLower name ++ [' '] := by
      rw [IsPrefix_take_eq hpre hnlen]
      exact List.take_left' hlenA
    rw [htake]
    simp only [beq_self_eq_true, Bool.true_and]
    by_cases heq : n.length = name.length + 1
    · simp [heq]
    · have hgt : name.length + 1 < n.length := by omega
      have hgd : (pyLower n).getD (name.length + 1) ' ' = c := by
        rw [IsPrefix_getD_eq hpre (by rw [pyLower_length]; omega) ' ']
        rw [List.getD_eq_getElem?_getD,
          List.getElem?_append_right (le_of_eq hlenA)]
        simp [hlenA]
      rw [hgd]
      simp [(digit_facts hc).1]

theorem findBookAux_first {target s : List Char} :
    ∀ names : List (List Char), target ∈ names → nameMatches s target = true →
      (∀ n ∈ names.takeWhile (fun x => !(x == target)), nameMatches s n = false) →
      findBookAux names s = (dictGet BOOK_INDEX target, pyStrip (s.drop target.length)) := by
  intro names
  induction names with
  | nil => intro h; exact absurd h (List.not_mem_nil _)
  | cons n rest ih =>
    intro hmem hmatch hbefore
    by_cases hn : n = target
    · subst hn
      rw [findBookAux, if_pos hmatch]
    · have htw : (n :: rest).takeWhile (fun x => !(x == target)) =
          n :: rest.takeWhile (fun x => !(x == target)) := by
        rw [List.takeWhile_cons]
        simp [hn]
      have hm := hbefore n (htw ▸ List.mem_cons_self n _)
      rw [findBookAux, if_neg (by rw [hm]; simp)]
      have hmem' : target ∈ rest := by
        rcases List.mem_cons.1 hmem with h | h
        · exact absurd h.symm hn
        · exact h
      refine ih hmem' hmatch ?_
      intro m hm2
      exact hbefore m (htw ▸ List.mem_cons_of_mem n hm2)

theorem books_check : (((List.range' 1 66).filter goodBook).all (fun b =>
    (SORTED_NAMES.elem (englishName b)) &&
    (dictGet BOOK_INDEX (englishName b) == some b) &&
    ((SORTED_NAMES.takeWhile (fun x => !(x == englishName b))).all
      (fun m => !(canMatch m (englishName b)))))) = true := by rfl

theorem eng_clean_check : ((List.range' 1 66).all (fun b =>
    (!(englishName b).isEmpty) &&
    ((englishName b).all
      (fun c => !(c == ',') && !(c == ';') && !(c == '–') && !(c == '—'))) &&
    (match englishName b with | [] => false | c :: _ => !pyIsSpace c) &&
    noAndB (englishName b ++ [' ']))) = true := by rfl

theorem mem_good_range {b : Nat} (hb : goodBook b = true) :
    b ∈ (List.range' 1 66).filter goodBook := by
  simp only [goodBook, Bool.and_eq_true, decide_eq_true_eq, Bool.not_eq_true',
    beq_eq_false_iff_ne, ne_eq] at hb
  refine List.mem_filter.2 ⟨List.mem_range'.2 ⟨b - 1, by omega, by omega⟩, ?_⟩
  simp [goodBook]
  omega

theorem mem_all_range {b : Nat} (h1 : 1 ≤ b) (h2 : b ≤ 66) :
    b ∈ List.range' 1 66 :=
  List.mem_range'.2 ⟨b - 1, by omega, by omega⟩

theorem books_check_at {b : Nat} (hb : goodBook b = true) :
    englishName b ∈ SORTED_NAMES ∧
    dictGet BOOK_INDEX (englishName b) = some b ∧
    ∀ m ∈ SORTED_NAMES.takeWhile (fun x => !(x == englishName b)),
      canMatch m (englishName b) = false := by
  have h := (List.all_eq_true.1 books_check) b (mem_good_range hb)
  simp only [Bool.and_eq_true] at h
  refine ⟨?_, ?_, ?_⟩
  · exact List.elem_iff.1 h.1.1
  · exact eq_of_beq h.1.2
  · intro m hm
    have := (List.all_eq_true.1 h.2) m hm
    simpa using this

theorem eng_clean_at {b : Nat} (h1 : 1 ≤ b) (h2 : b ≤ 66) :
    englishName b ≠ [] ∧
    (∀ c ∈ englishName b, c ≠ ',' ∧ c ≠ ';' ∧ c ≠ '–' ∧ c ≠ '—') ∧
    (∀ c, (englishName b).head? = some c → pyIsSpace c = false) ∧
    noAndB (englishName b ++ [' ']) = true := by
  have h := (List.all_eq_true.1 eng_clean_check) b (mem_all_range h1 h2)
  simp only [Bool.and_eq_true] at h
  obtain ⟨⟨⟨hne, hall⟩, hhead⟩, hand⟩ := h
  refine ⟨?_, ?_, ?_, hand⟩
  · intro he
    rw [he] at hne
    simp at hne
  · intro c hc
    have := (List.all_eq_true.1 hall) c hc
    simp only [Bool.and_eq_true, Bool.not_eq_true', beq_eq_false_iff_ne, ne_eq] at this
    exact ⟨this.1.1.1, this.1.1.2, this.1.2, this.2⟩
  · intro c hc
    match hn : englishName b, hc with
    | a :: t, hc =>
      rw [hn] at hhead
      simp only [List.head?] at hc
      cases hc
      simpa using hhead

theorem findBookAux_none {s : List Char} :
    ∀ names : List (List Char), (∀ n ∈ names, nameMatches s n = false) →
      findBookAux names s = (none, s) := by
  intro names
  induction names with
  | nil => intro _; rfl
  | cons n rest ih =>
    intro h
    rw [findBookAux, if_neg (by rw [h n (List.mem_cons_self n rest)]; simp)]
    exact ih (fun m hm => h m (List.mem_cons_of_mem n hm))

theorem goodBook_le {b : Nat} (hb : goodBook b = true) : 1 ≤ b ∧ b ≤ 66 := by
  simp only [goodBook, Bool.and_eq_true, decide_eq_true_eq] at hb
  exact ⟨hb.1.1.1.1, hb.1.1.1.2⟩

theorem strip_eng_block {b : Nat} (h1 : 1 ≤ b) (h2 : b ≤ 66) {c : Char}
    {rs : List Char} (hlast : ∀ d, (c :: rs).getLast? = some d → pyIsSpace d = false) :
    pyStrip (englishName b ++ ' ' :: c :: rs) = englishName b ++ ' ' :: c :: rs := by
  obtain ⟨hne, hchars, hhead, _⟩ := eng_clean_at h1 h2
  obtain ⟨a, t, hat⟩ := List.exists_cons_of_ne_nil hne
  refine pyStrip_no_ws ?_ ?_
  · intro x hx
    rw [hat] at hx
    simp only [List.cons_append, List.head?_cons, Option.some.injEq] at hx
    subst hx
    exact hhead a (by rw [hat]; rfl)
  · intro x hx
    rw [List.getLast?_append_of_ne_nil _ (by simp)] at hx
    rw [List.getLast?_cons_cons] at hx
    exact hlast x hx

theorem find_book_eng {b : Nat} (hb : goodBook b = true) {c : Char} {rs : List Char}
    (hc : c ∈ DIGITS)
    (hlast : ∀ d, (c :: rs).getLast? = some d → pyIsSpace d = false) :
    find_book (englishName b ++ ' ' :: c :: rs) = (some b, c :: rs) := by
  have hb12 : 1 ≤ b ∧ b ≤ 66 := goodBook_le hb
  obtain ⟨hmem, hget, hbefore⟩ := books_check_at hb
  unfold find_book
  rw [strip_eng_block hb12.1 hb12.2 hlast]
  have hmatch : nameMatches (englishName b ++ ' ' :: c :: rs) (englishName b) = true := by
    rw [nameMatches, Bool.or_eq_true]
    exact Or.inl (isPrefixOf_eq.2 (List.prefix_append _ _))
  have hbefore' : ∀ n ∈ SORTED_NAMES.takeWhile (fun x => !(x == englishName b)),
      nameMatches (englishName b ++ ' ' :: c :: rs) n = false := by
    intro n hn
    cases hm : nameMatches (englishName b ++ ' ' :: c :: rs) n
    · rfl
    · have := canMatch_of_match hc hm
      rw [hbefore n hn] at this
      cases this
  rw [findBookAux_first SORTED_NAMES hmem hmatch hbefore']
  rw [hget, List.drop_left, pyStrip_cons_space]
  rw [pyStrip_no_ws (fun x hx => by
      simp only [List.head?] at hx
      cases hx
      exact (digit_facts hc).2.2.1) hlast]

/-!  ### The chapter pattern  -/

theorem all_digit_natChars (a : Nat) : ∀ x ∈ natChars a, Char.isDigit x = true :=
  fun x hx => (digit_facts (natChars_mem x hx)).1

theorem strip_digits {c : Char} {rs : List Char} (hc : c ∈ DIGITS)
    (hlast : ∀ d, (c :: rs).getLast? = some d → pyIsSpace d = false) :
    pyStrip (c :: rs) = c :: rs :=
  pyStrip_no_ws (fun x hx => by
    simp only [List.head?_cons, Option.some.injEq] at hx
    subst hx
    exact (digit_facts hc).2.2.1) hlast

theorem natChars_getLast_digit (n : Nat) :
    ∀ d, (natChars n).getLast? = some d → pyIsSpace d = false := by
  intro d hd
  have : d ∈ natChars n := by
    obtain ⟨c, cs, hshape⟩ := List.exists_cons_of_ne_nil (natChars_ne_nil n)
    rw [hshape] at hd ⊢
    exact List.mem_of_mem_getLast? hd
  exact (digit_facts (natChars_mem d this)).2.2.1

theorem matchChapter_digits (a : Nat) : matchChapter (natChars a) = some (a, a) := by
  obtain ⟨c, cs, hshape, _⟩ := natChars_head_digit (n := a)
  have htake : (natChars a).takeWhile Char.isDigit = c :: cs := by
    rw [List.takeWhile_eq_self_iff.2 (all_digit_natChars a), hshape]
  have hdrop : (natChars a).dropWhile Char.isDigit = [] :=
    List.dropWhile_eq_nil_iff.2 (fun x hx => all_digit_natChars a x hx)
  unfold matchChapter
  rw [htake, hdrop]
  simp only [List.dropWhile_nil]
  rw [← hshape, digitsToNat_natChars]

theorem takeWhile_digits_append {x : Char} (hx : Char.isDigit x = false)
    (a : Nat) (v : List Char) :
    (natChars a ++ x :: v).takeWhile Char.isDigit = natChars a := by
  rw [List.takeWhile_append_of_pos (all_digit_natChars a), List.takeWhile_cons, hx]
  simp

theorem dropWhile_digits_append {x : Char} (hx : Char.isDigit x = false)
    (a : Nat) (v : List Char) :
    (natChars a ++ x :: v).dropWhile Char.isDigit = x :: v := by
  rw [List.dropWhile_append_of_pos (all_digit_natChars a), List.dropWhile_cons, hx]
  simp

theorem matchChapter_dash (a e : Nat) {dash : Char} (hdash : dash = '-' ∨ dash = '–') :
    matchChapter (natChars a ++ dash :: natChars e) = some (a, e) := by
  have hxd : Char.isDigit dash = false := by rcases hdash with rfl | rfl <;> decide
  have hsp : pyIsSpace dash = false := by rcases hdash with rfl | rfl <;> decide
  obtain ⟨c, cs, hshape, _⟩ := natChars_head_digit (n := a)
  obtain ⟨c2, cs2, hshape2, hc2⟩ := natChars_head_digit (n := e)
  unfold matchChapter
  rw [takeWhile_digits_append hxd, dropWhile_digits_append hxd, hshape,
    List.dropWhile_cons, hsp]
  simp only [Bool.false_eq_true, if_false]
  rw [if_pos (by rcases hdash with rfl | rfl <;> simp)]
  rw [dropWhile_head_not (p := pyIsSpace) (fun d hd => by
    obtain ⟨c3, cs3, hs3⟩ := List.exists_cons_of_ne_nil (natChars_ne_nil e)
    rw [hs3] at hd
    simp only [List.head?_cons, Option.some.injEq] at hd
    subst hd
    exact (digit_facts (natChars_mem _ (hs3 ▸ List.mem_cons_self _ _))).2.2.1)]
  have hda : digitsToNat (c :: cs) = a := by rw [← hshape, digitsToNat_natChars]
  have hde : digitsToNat (c2 :: cs2) = e := by rw [← hshape2, digitsToNat_natChars]
  rw [List.takeWhile_eq_self_iff.2 (all_digit_natChars e), hshape2]
  show some (digitsToNat (c :: cs), digitsToNat (c2 :: cs2)) = some (a, e)
  rw [hda, hde]

theorem matchChapter_stop (a : Nat) {x : Char} {v : List Char}
    (hxd : Char.isDigit x = false) (hxs : pyIsSpace x = false)
    (hxdash : ¬(x = '-' ∨ x = '–')) :
    matchChapter (natChars a ++ x :: v) = some (a, a) := by
  obtain ⟨c, cs, hshape, _⟩ := natChars_head_digit (n := a)
  unfold matchChapter
  rw [takeWhile_digits_append hxd, dropWhile_digits_append hxd, hshape,
    List.dropWhile_cons, hxs]
  simp only [Bool.false_eq_true, if_false]
  rw [if_neg (by
    intro hcon
    rcases Bool.or_eq_true _ _ ▸ hcon with h | h
    · exact hxdash (Or.inl (by simpa using h))
    · exact hxdash (Or.inr (by simpa using h)))]
  rw [← hshape, digitsToNat_natChars]

/-!  ### Sub-clause resolution for rendered English blocks  -/

theorem refPairs_eng {b A B : Nat} (hb : goodBook b = true) {c : Char} {rs : List Char}
    (hc : c ∈ DIGITS)
    (hlast : ∀ d, (c :: rs).getLast? = some d → pyIsSpace d = false)
    (hmc : matchChapter (c :: rs) = some (A, B)) :
    refPairs (englishName b ++ ' ' :: c :: rs) =
      (List.range' A (B + 1 - A)).map (fun ch => (b, ch)) := by
  have hb12 := goodBook_le hb
  obtain ⟨hne, _, _, _⟩ := eng_clean_at hb12.1 hb12.2
  obtain ⟨a, t, hat⟩ := List.exists_cons_of_ne_nil hne
  unfold refPairs
  rw [strip_eng_block hb12.1 hb12.2 hlast, hat]
  simp only [List.cons_append]
  rw [← List.cons_append, ← hat, find_book_eng hb hc hlast]
  simp only
  rw [strip_digits hc hlast, hmc]

theorem noDelim_eng_block {b : Nat} (h1 : 1 ≤ b) (h2 : b ≤ 66) {v : List Char}
    (hv : ∀ x ∈ v, x ∈ VCHARS) :
    noDelimB (englishName b ++ ' ' :: v) = true := by
  obtain ⟨hne, hchars, hhead, hand⟩ := eng_clean_at h1 h2
  have hform : englishName b ++ ' ' :: v = (englishName b ++ [' ']) ++ v := by
    rw [List.append_assoc]
    rfl
  refine noDelimB_of ?_ ?_
  · intro x hx
    rcases List.mem_append.1 hx with hx | hx
    · exact ⟨(hchars x hx).1, (hchars x hx).2.1⟩
    · rcases List.mem_cons.1 hx with rfl | hx
      · exact ⟨by decide, by decide⟩
      · exact ⟨(vchar_facts (hv x hx)).2.2.1, (vchar_facts (hv x hx)).2.2.2.1⟩
  · intro u hu
    rw [hform] at hu
    rcases suffix_append_split hu with hl | ⟨u1, hne1, hsuf, rfl⟩
    · exact andTest_vchars (fun x hx => hv x (List.IsSuffix.subset hl hx))
    · by_cases hlen : u1.length ≤ 4
      · exact andTest_straddle hne1 hlen hv
      · rw [andTest_append5 (by omega)]
        rcases noAndB_suffix hand hsuf with h | h
        · exact absurd h hne1
        · exact h

theorem parse_ref_eng_block {b : Nat} (hb : goodBook b = true) {v : List Char}
    (hv : ∀ x ∈ v, x ∈ VCHARS) :
    parse_ref (englishName b ++ ' ' :: v) = refPairs (englishName b ++ ' ' :: v) := by
  have hb12 := goodBook_le hb
  unfold parse_ref
  rw [splitRefs_clean (noDelim_eng_block hb12.1 hb12.2 hv)]
  simp

/-!  ### The greedy run decomposition of the formatter  -/

theorem greedyRun_spec (b : Nat) :
    ∀ (l : List (Nat × Nat)) (last : Nat),
      (greedyRun b last l).1 = List.range' (last + 1) (greedyRun b last l).1.length ∧
      l = (greedyRun b last l).1.map (fun ch => (b, ch)) ++ (greedyRun b last l).2 ∧
      (∀ p, (greedyRun b last l).2.head? = some p →
        ¬(p.1 = b ∧ p.2 = last + (greedyRun b last l).1.length + 1)) := by
  intro l
  induction l with
  | nil =>
    intro last
    refine ⟨rfl, rfl, ?_⟩
    intro p hp
    cases hp
  | cons q rest ih =>
    intro last
    obtain ⟨b2, c2⟩ := q
    simp only [greedyRun]
    by_cases hc : b2 = b ∧ c2 = last + 1
    · rw [if_pos hc]
      obtain ⟨hb2, hc2⟩ := hc
      subst hb2
      subst hc2
      dsimp only
      obtain ⟨ih1, ih2, ih3⟩ := ih (last + 1)
      refine ⟨?_, ?_, ?_⟩
      · rw [List.length_cons, List.range'_succ]
        exact congrArg (List.cons _) ih1
      · simp only [List.map_cons, List.cons_append]
        exact congrArg (List.cons _) ih2
      · intro p hp
        have h3 := ih3 p hp
        intro hcon
        refine h3 ⟨hcon.1, ?_⟩
        have := hcon.2
        simp only [List.length_cons] at this
        omega
    · rw [if_neg hc]
      dsimp only
      refine ⟨rfl, rfl, ?_⟩
      intro p hp
      simp only [List.head?_cons, Option.some.injEq] at hp
      subst hp
      intro hcon
      refine hc ⟨hcon.1, ?_⟩
      have := hcon.2
      simpa using this

theorem groupRunsGo_fuel :
    ∀ f1 f2 (l : List (Nat × Nat)), l.length < f1 → l.length < f2 →
      groupRunsGo f1 l = groupRunsGo f2 l := by
  intro f1
  induction f1 with
  | zero => intro f2 l h _; omega
  | succ g ih =>
    intro f2 l h1 h2
    cases f2 with
    | zero => omega
    | succ f2' =>
      rcases l with _ | ⟨⟨b, c⟩, rest⟩
      · rfl
      · simp only [groupRunsGo]
        congr 1
        have hr := greedyRun_rest_length b c rest
        simp only [List.length_cons] at h1 h2
        exact ih f2' _ (by omega) (by omega)

theorem groupRuns_eq (l : List (Nat × Nat)) :
    groupRuns l = match l with
      | [] => []
      | (b, c) :: rest =>
        (b, c :: (greedyRun b c rest).1) :: groupRuns (greedyRun b c rest).2 := by
  rcases l with _ | ⟨⟨b, c⟩, rest⟩
  · rfl
  · show groupRunsGo (rest.length + 1 + 1) _ = _
    simp only [groupRunsGo]
    congr 1
    have hr := greedyRun_rest_length b c rest
    exact groupRunsGo_fuel (rest.length + 1) ((greedyRun b c rest).2.length + 1) _
      (by omega) (by omega)

theorem groupRuns_flatten :
    ∀ (n : Nat) (l : List (Nat × Nat)), l.length ≤ n →
      (groupRuns l).flatMap (fun g => g.2.map (fun ch => (g.1, ch))) = l := by
  intro n
  induction n with
  | zero =>
    intro l hl
    rcases l with _ | ⟨p, rest⟩
    · rfl
    · simp at hl
  | succ n ih =>
    intro l hl
    rcases l with _ | ⟨⟨b, c⟩, rest⟩
    · rfl
    · rw [groupRuns_eq]
      obtain ⟨_, h2, _⟩ := greedyRun_spec b rest c
      have hr := greedyRun_rest_length b c rest
      simp only [List.length_cons] at hl
      simp only [List.flatMap_cons, List.map_cons]
      rw [ih (greedyRun b c rest).2 (by omega)]
      simp only [List.cons_append]
      exact congrArg (List.cons _) h2.symm

theorem range'_getLast? (s k : Nat) :
    (List.range' s (k + 1)).getLast? = some (s + k) := by
  rw [List.range'_concat, List.getLast?_concat]
  simp

theorem groupRuns_shape :
    ∀ (n : Nat) (l : List (Nat × Nat)), l.length ≤ n →
      ∀ g ∈ groupRuns l, ∃ c k, g.2 = List.range' c (k + 1) := by
  intro n
  induction n with
  | zero =>
    intro l hl g hg
    rcases l with _ | ⟨p, rest⟩
    · rw [groupRuns_eq] at hg; cases hg
    · simp at hl
  | succ n ih =>
    intro l hl g hg
    rcases l with _ | ⟨⟨b, c⟩, rest⟩
    · rw [groupRuns_eq] at hg; cases hg
    · rw [groupRuns_eq] at hg
      rcases List.mem_cons.1 hg with rfl | hg2
      · obtain ⟨h1, _, _⟩ := greedyRun_spec b rest c
        refine ⟨c, (greedyRun b c rest).1.length, ?_⟩
        show c :: (greedyRun b c rest).1 = _
        rw [List.range'_succ]
        exact congrArg (List.cons _) h1
      · have hr := greedyRun_rest_length b c rest
        simp only [List.length_cons] at hl
        exact ih (greedyRun b c rest).2 (by omega) g hg2

theorem groupRuns_chain :
    ∀ (n : Nat) (l : List (Nat × Nat)), l.length ≤ n →
      List.Chain'
        (fun g h => ∀ x y, g.2.getLast? = some x → h.2.head? = some y →
          ¬(h.1 = g.1 ∧ y = x + 1)) (groupRuns l) := by
  intro n
  induction n with
  | zero =>
    intro l hl
    rcases l with _ | ⟨p, rest⟩
    · exact List.chain'_nil
    · simp at hl
  | succ n ih =>
    intro l hl
    rcases l with _ | ⟨⟨b, c⟩, rest⟩
    · exact List.chain'_nil
    · rw [groupRuns_eq]
      have hr := greedyRun_rest_length b c rest
      simp only [List.length_cons] at hl
      rw [List.chain'_cons']
      refine ⟨?_, ih _ (by omega)⟩
      intro h hh x y hx hy
      obtain ⟨h1, _, h3⟩ := greedyRun_spec b rest c
      rcases hr2 : (greedyRun b c rest).2 with _ | ⟨⟨b2, c2⟩, r2⟩
      · simp [hr2, groupRuns_eq] at hh
      · rw [hr2, groupRuns_eq] at hh
        simp only [List.head?_cons, Option.mem_def, Option.some.injEq] at hh
        subst hh
        simp only [List.head?_cons, Option.some.injEq] at hy
        subst hy
        have hlast : (c :: (greedyRun b c rest).1).getLast? =
            some (c + (greedyRun b c rest).1.length) := by
          have hrange : c :: (greedyRun b c rest).1 =
              List.range' c ((greedyRun b c rest).1.length + 1) := by
            rw [List.range'_succ]
            exact congrArg (List.cons _) h1
          rw [hrange, range'_getLast?]
        rw [hlast] at hx
        simp only [Option.some.injEq] at hx
        subst hx
        intro hcon
        exact h3 (b2, c2) (by rw [hr2]; rfl) ⟨hcon.1, by omega⟩

/-!  ### Rendering English groups  -/

theorem BOOK_ENGLISH_length : BOOK_ENGLISH.length = 67 := by rfl

theorem renderGroup_eng_single (b c : Nat) (hb : b ≤ 66) :
    renderGroup BOOK_ENGLISH [' '] (", ".toList) (b, [c]) =
      englishName b ++ ' ' :: natChars c := by
  unfold renderGroup
  dsimp only
  rw [if_pos (show b < BOOK_ENGLISH.length by rw [BOOK_ENGLISH_length]; omega)]
  rw [List.append_assoc]
  rfl

theorem renderGroup_eng_run (b c k : Nat) (hb : b ≤ 66) :
    renderGroup BOOK_ENGLISH [' '] (", ".toList) (b, List.range' c (k + 1 + 1)) =
      englishName b ++ ' ' :: (natChars c ++ '-' :: natChars (c + (k + 1))) := by
  have hshape : List.range' c (k + 1 + 1) = c :: (c + 1) :: List.range' (c + 1 + 1) k := by
    rw [List.range'_succ, List.range'_succ]
  have hgl : (c :: (c + 1) :: List.range' (c + 1 + 1) k).getLast? = some (c + (k + 1)) := by
    rw [← hshape, range'_getLast?]
  unfold renderGroup
  rw [hshape]
  dsimp only
  rw [hgl]
  dsimp only
  have harith : c + (k + 1) + 1 - c = k + 1 + 1 := by omega
  rw [harith, if_pos hshape.symm]
  rw [if_pos (show b < BOOK_ENGLISH.length by rw [BOOK_ENGLISH_length]; omega)]
  simp [englishName, List.append_assoc]

/-!  ### Parsing one rendered block  -/

theorem block_pairs {b c k : Nat} (hb : goodBook b = true) :
    parse_ref (renderGroup BOOK_ENGLISH [' '] (", ".toList) (b, List.range' c (k + 1))) =
      (List.range' c (k + 1)).map (fun ch => (b, ch)) := by
  have hb12 := goodBook_le hb
  cases k with
  | zero =>
    have hr1 : List.range' c 1 = [c] := rfl
    rw [hr1, renderGroup_eng_single b c hb12.2]
    obtain ⟨c1, rs1, hs1, hc1⟩ := natChars_head_digit (n := c)
    rw [hs1]
    rw [parse_ref_eng_block hb (fun x hx =>
      List.mem_append.2 (Or.inl (natChars_mem x (hs1 ▸ hx))))]
    rw [refPairs_eng hb hc1 (fun d hd => natChars_getLast_digit c d (hs1 ▸ hd))
      (by rw [← hs1, matchChapter_digits])]
    have harith : c + 1 - c = 1 := by omega
    rw [harith, hr1]
  | succ k' =>
    rw [renderGroup_eng_run b c k' hb12.2]
    obtain ⟨c1, rs1, hs1, hc1⟩ := natChars_head_digit (n := c)
    have hform : natChars c ++ '-' :: natChars (c + (k' + 1)) =
        c1 :: (rs1 ++ '-' :: natChars (c + (k' + 1))) := by
      rw [hs1]
      rfl
    have hvc : ∀ x ∈ natChars c ++ '-' :: natChars (c + (k' + 1)), x ∈ VCHARS := by
      intro x hx
      rcases List.mem_append.1 hx with hx | hx
      · exact List.mem_append.2 (Or.inl (natChars_mem x hx))
      · rcases List.mem_cons.1 hx with rfl | hx
        · exact List.mem_append.2 (Or.inr (by decide))
        · exact List.mem_append.2 (Or.inl (natChars_mem x hx))
    have hlast : ∀ d, (c1 :: (rs1 ++ '-' :: natChars (c + (k' + 1)))).getLast? = some d →
        pyIsSpace d = false := by
      intro d hd
      rw [← List.cons_append, ← hs1] at hd
      rw [List.getLast?_append_of_ne_nil _ (by simp)] at hd
      rw [show ('-' :: natChars (c + (k' + 1))) = ['-'] ++ natChars (c + (k' + 1)) from rfl,
        List.getLast?_append_of_ne_nil _ (natChars_ne_nil _)] at hd
      exact natChars_getLast_digit _ d hd
    have hmc : matchChapter (c1 :: (rs1 ++ '-' :: natChars (c + (k' + 1)))) =
        some (c, c + (k' + 1)) := by
      rw [← List.cons_append, ← hs1]
      exact matchChapter_dash c (c + (k' + 1)) (Or.inl rfl)
    rw [hform]
    rw [parse_ref_eng_block hb (fun x hx => hvc x (by rw [hform]; exact hx))]
    rw [refPairs_eng hb hc1 hlast hmc]
    have harith : c + (k' + 1) + 1 - c = k' + 1 + 1 := by omega
    rw [harith]

/-!  ### Rejoining and resplitting a day line  -/

theorem pyJoin_two (sep : List Char) (T1 T2 : List Char) (rest : List (List Char)) :
    pyJoin sep (T1 :: T2 :: rest) = T1 ++ sep ++ pyJoin sep (T2 :: rest) := rfl

theorem pyJoin_shift (T2 : List Char) (rest : List (List Char)) :
    ' ' :: pyJoin (';' :: [' ']) (T2 :: rest) =
      pyJoin (';' :: [' ']) ((' ' :: T2) :: rest) := by
  cases rest with
  | nil => rfl
  | cons T3 r => rfl

theorem split_join :
    ∀ (n : Nat) (Ts : List (List Char)), Ts.length ≤ n → Ts ≠ [] →
      (∀ T ∈ Ts, ';' ∉ T) →
      (splitOnChar ';' (pyJoin (';' :: [' ']) Ts)).map pyStrip = Ts.map pyStrip := by
  intro n
  induction n with
  | zero =>
    intro Ts hl hne
    rcases Ts with _ | ⟨T, rest⟩
    · exact absurd rfl hne
    · simp at hl
  | succ n ih =>
    intro Ts hl hne hsep
    rcases Ts with _ | ⟨T1, rest⟩
    · exact absurd rfl hne
    · rcases rest with _ | ⟨T2, rest2⟩
      · show (splitOnChar ';' T1).map pyStrip = [pyStrip T1]
        rw [splitOnChar_not_mem (hsep T1 (List.mem_cons_self _ _))]
        rfl
      · rw [pyJoin_two]
        have hT1 : ';' ∉ T1 := hsep T1 (List.mem_cons_self _ _)
        have hx : T1 ++ (';' :: [' ']) ++ pyJoin (';' :: [' ']) (T2 :: rest2) =
            T1 ++ ';' :: (' ' :: pyJoin (';' :: [' ']) (T2 :: rest2)) := by
          rw [List.append_assoc]
          rfl
        rw [hx, splitOnChar_append hT1, pyJoin_shift]
        have hlen : ((' ' :: T2) :: rest2).length ≤ n := by
          simp only [List.length_cons] at hl ⊢
          omega
        have hsep2 : ∀ T ∈ (' ' :: T2) :: rest2, ';' ∉ T := by
          intro T hT
          rcases List.mem_cons.1 hT with rfl | hT
          · intro hmem
            rcases List.mem_cons.1 hmem with h | h
            · cases h
            · exact hsep T2 (List.mem_cons_of_mem _ (List.mem_cons_self _ _)) h
          · exact hsep T (List.mem_cons_of_mem _ (List.mem_cons_of_mem _ hT))
        rw [List.map_cons, ih ((' ' :: T2) :: rest2) hlen (by simp) hsep2]
        rw [List.map_cons, List.map_cons, List.map_cons, pyStrip_cons_space]

/-!  ### The dedup loop  -/

theorem foldl_dedupStep :
    ∀ (ps : List (Nat × Nat)) (seen : List (Nat × Nat)) (out : List (List Char)),
      (ps.foldl dedupStep (seen, out)).2 = out ++ (dedupPairs seen ps).map interchange := by
  intro ps
  induction ps with
  | nil => intro seen out; simp [dedupPairs]
  | cons p ps ih =>
    intro seen out
    rw [List.foldl_cons, dedupPairs]
    by_cases hp : p ∈ seen
    · rw [if_pos hp]
      have hstep : dedupStep (seen, out) p = (seen, out) := by
        unfold dedupStep
        rw [if_pos hp]
      rw [hstep, ih]
    · rw [if_neg hp]
      have hstep : dedupStep (seen, out) p = (p :: seen, out ++ [interchange p]) := by
        unfold dedupStep
        rw [if_neg hp]
      rw [hstep, ih]
      simp

theorem mem_dedupPairs :
    ∀ (ps seen : List (Nat × Nat)) (p : Nat × Nat),
      p ∈ dedupPairs seen ps ↔ p ∈ ps ∧ p ∉ seen := by
  intro ps
  induction ps with
  | nil => intro seen p; simp [dedupPairs]
  | cons q ps ih =>
    intro seen p
    rw [dedupPairs]
    by_cases hq : q ∈ seen
    · rw [if_pos hq, ih]
      constructor
      · exact fun h => ⟨List.mem_cons_of_mem q h.1, h.2⟩
      · rintro ⟨hmem, hns⟩
        rcases List.mem_cons.1 hmem with rfl | hmem
        · exact absurd hq hns
        · exact ⟨hmem, hns⟩
    · rw [if_neg hq]
      constructor
      · intro h
        rcases List.mem_cons.1 h with rfl | h
        · exact ⟨List.mem_cons_self _ _, hq⟩
        · have := (ih (q :: seen) p).1 h
          exact ⟨List.mem_cons_of_mem q this.1,
            fun hmem => this.2 (List.mem_cons_of_mem q hmem)⟩
      · rintro ⟨hmem, hns⟩
        rcases List.mem_cons.1 hmem with rfl | hmem
        · exact List.mem_cons_self _ _
        · by_cases hpq : p = q
          · exact hpq ▸ List.mem_cons_self _ _
          · exact List.mem_cons_of_mem _ ((ih (q :: seen) p).2
              ⟨hmem, fun hc => (List.mem_cons.1 hc).elim hpq hns⟩)

theorem dedupPairs_nodup :
    ∀ (ps seen : List (Nat × Nat)), (dedupPairs seen ps).Nodup := by
  intro ps
  induction ps with
  | nil => intro seen; exact List.nodup_nil
  | cons q ps ih =>
    intro seen
    rw [dedupPairs]
    by_cases hq : q ∈ seen
    · rw [if_pos hq]
      exact ih seen
    · rw [if_neg hq]
      refine List.nodup_cons.2 ⟨?_, ih (q :: seen)⟩
      intro hmem
      exact ((mem_dedupPairs ps (q :: seen) q).1 hmem).2 (List.mem_cons_self _ _)

theorem dedupPairs_all_new :
    ∀ (ps seen : List (Nat × Nat)), (∀ p ∈ ps, p ∉ seen) → ps.Nodup →
      dedupPairs seen ps = ps := by
  intro ps
  induction ps with
  | nil => intro seen _ _; rfl
  | cons q ps ih =>
    intro seen hnew hnd
    rw [dedupPairs, if_neg (hnew q (List.mem_cons_self _ _))]
    congr 1
    refine ih (q :: seen) ?_ (List.nodup_cons.1 hnd).2
    intro p hp hmem
    rcases List.mem_cons.1 hmem with rfl | hmem
    · exact (List.nodup_cons.1 hnd).1 hp
    · exact hnew p (List.mem_cons_of_mem q hp) hmem

/-!  ### Helper congruences  -/

theorem flatMap_congr_mem {α β : Type} {f g : α → List β} :
    ∀ l : List α, (∀ a ∈ l, f a = g a) → l.flatMap f = l.flatMap g := by
  intro l
  induction l with
  | nil => intro _; rfl
  | cons a l ih =>
    intro h
    rw [List.flatMap_cons, List.flatMap_cons, h a (List.mem_cons_self _ _),
      ih (fun x hx => h x (List.mem_cons_of_mem a hx))]

theorem flatMap_map_list {α β γ : Type} (g : α → β) (f : β → List γ) :
    ∀ l : List α, (l.map g).flatMap f = l.flatMap (fun a => f (g a)) := by
  intro l
  induction l with
  | nil => rfl
  | cons a l ih =>
    rw [List.map_cons, List.flatMap_cons, List.flatMap_cons, ih]

theorem map_congr_mem {α β : Type} {f g : α → β} :
    ∀ l : List α, (∀ a ∈ l, f a = g a) → l.map f = l.map g := by
  intro l
  induction l with
  | nil => intro _; rfl
  | cons a l ih =>
    intro h
    rw [List.map_cons, List.map_cons, h a (List.mem_cons_self _ _),
      ih (fun x hx => h x (List.mem_cons_of_mem a hx))]

theorem mem_pyJoin {c : Char} (sep : List Char) :
    ∀ Ts : List (List Char), c ∈ pyJoin sep Ts → c ∈ sep ∨ ∃ T ∈ Ts, c ∈ T := by
  intro Ts
  induction Ts with
  | nil => intro h; cases h
  | cons T rest ih =>
    intro h
    rcases rest with _ | ⟨T2, r2⟩
    · exact Or.inr ⟨T, List.mem_cons_self _ _, h⟩
    · rw [pyJoin_two] at h
      rcases List.mem_append.1 h with h | h
      · rcases List.mem_append.1 h with h | h
        · exact Or.inr ⟨T, List.mem_cons_self _ _, h⟩
        · exact Or.inl h
      · rcases ih h with h | ⟨T', hT', hc⟩
        · exact Or.inl h
        · exact Or.inr ⟨T', List.mem_cons_of_mem _ hT', hc⟩

theorem seqParse_interchange :
    ∀ ps : List (Nat × Nat), seqParse (ps.map interchange) = some ps := by
  intro ps
  induction ps with
  | nil => rfl
  | cons p ps ih =>
    rw [List.map_cons, seqParse, parsePair_interchange, ih]

/-!  ### The round trip, assembled  -/

theorem map_dashFix_id {s : List Char} (h : ∀ ch ∈ s, ch ≠ '–' ∧ ch ≠ '—') :
    s.map dashFix = s := by
  induction s with
  | nil => rfl
  | cons c cs ih =>
    have hc := h c (List.mem_cons_self _ _)
    rw [List.map_cons, ih (fun x hx => h x (List.mem_cons_of_mem c hx))]
    congr 1
    unfold dashFix
    rw [if_neg (by simp [hc.1, hc.2])]

theorem render_form {b c k : Nat} (hb : b ≤ 66) :
    ∃ v, renderGroup BOOK_ENGLISH [' '] (", ".toList) (b, List.range' c (k + 1)) =
      englishName b ++ ' ' :: v ∧ (∀ x ∈ v, x ∈ DIGITS ∨ x = '-') ∧ v ≠ [] ∧
      (∀ d, v.getLast? = some d → d ∈ DIGITS) := by
  cases k with
  | zero =>
    refine ⟨natChars c, ?_, ?_, natChars_ne_nil c, ?_⟩
    · exact renderGroup_eng_single b c hb
    · exact fun x hx => Or.inl (natChars_mem x hx)
    · exact fun d hd => natChars_mem d (List.mem_of_mem_getLast? hd)
  | succ k' =>
    refine ⟨natChars c ++ '-' :: natChars (c + (k' + 1)), ?_, ?_, by simp, ?_⟩
    · exact renderGroup_eng_run b c k' hb
    · intro x hx
      rcases List.mem_append.1 hx with hx | hx
      · exact Or.inl (natChars_mem x hx)
      · rcases List.mem_cons.1 hx with rfl | hx
        · exact Or.inr rfl
        · exact Or.inl (natChars_mem x hx)
    · intro d hd
      rw [List.getLast?_append_of_ne_nil _ (by simp)] at hd
      rw [show ('-' :: natChars (c + (k' + 1))) = ['-'] ++ natChars (c + (k' + 1)) from rfl,
        List.getLast?_append_of_ne_nil _ (natChars_ne_nil _)] at hd
      exact natChars_mem d (List.mem_of_mem_getLast? hd)

theorem groupRuns_good {ps : List (Nat × Nat)}
    (hgood : ∀ p ∈ ps, goodBook p.1 = true) :
    ∀ g ∈ groupRuns ps, goodBook g.1 = true ∧ ∃ c k, g.2 = List.range' c (k + 1) := by
  intro g hg
  obtain ⟨c, k, hshape⟩ := groupRuns_shape ps.length ps le_rfl g hg
  refine ⟨?_, c, k, hshape⟩
  have hflat := groupRuns_flatten ps.length ps le_rfl
  have hmem : (g.1, c) ∈ ps := by
    rw [← hflat]
    refine List.mem_flatMap.2 ⟨g, hg, ?_⟩
    refine List.mem_map.2 ⟨c, ?_, rfl⟩
    rw [hshape, List.range'_succ]
    exact List.mem_cons_self _ _
  exact hgood (g.1, c) hmem

theorem block_facts {g : Nat × List Nat} (hb : goodBook g.1 = true)
    {c k : Nat} (hshape : g.2 = List.range' c (k + 1)) :
    let B := renderGroup BOOK_ENGLISH [' '] (", ".toList) g
    (∀ ch ∈ B, ch ≠ ';' ∧ ch ≠ '–' ∧ ch ≠ '—') ∧ pyStrip B = B ∧ B ≠ [] ∧
    (match B with
      | [] => ([] : List (Nat × Nat))
      | _ :: _ => parse_ref B) = g.2.map (fun ch => (g.1, ch)) := by
  intro B
  have hb12 := goodBook_le hb
  obtain ⟨hne, hchars, hhead, _⟩ := eng_clean_at hb12.1 hb12.2
  obtain ⟨v, hform, hv, hvne, hvlast⟩ := render_form (b := g.1) (c := c) (k := k) hb12.2
  have hBg : B = englishName g.1 ++ ' ' :: v := by
    show renderGroup BOOK_ENGLISH [' '] (", ".toList) g = _
    have : g = (g.1, List.range' c (k + 1)) := by
      rw [← hshape]
    rw [this]
    exact hform
  obtain ⟨v1, vs, hvshape⟩ := List.exists_cons_of_ne_nil hvne
  have hv1 : v1 ∈ DIGITS ∨ v1 = '-' := hv v1 (hvshape ▸ List.mem_cons_self _ _)
  have hvlast' : ∀ d, (v1 :: vs).getLast? = some d → pyIsSpace d = false := by
    intro d hd
    exact (digit_facts (hvlast d (hvshape ▸ hd))).2.2.1
  refine ⟨?_, ?_, ?_, ?_⟩
  · intro ch hch
    rw [hBg] at hch
    rcases List.mem_append.1 hch with hch | hch
    · have := hchars ch hch
      exact ⟨this.2.1, this.2.2.1, this.2.2.2⟩
    · rcases List.mem_cons.1 hch with rfl | hch
      · exact ⟨by decide, by decide, by decide⟩
      · rcases hv ch hch with hd | rfl
        · have := digit_facts hd
          exact ⟨this.2.2.2.2.1, this.2.2.2.2.2.2.2.1, this.2.2.2.2.2.2.2.2.1⟩
        · exact ⟨by decide, by decide, by decide⟩
  · rw [hBg, hvshape]
    exact strip_eng_block hb12.1 hb12.2 hvlast'
  · rw [hBg]
    obtain ⟨a, t, hat⟩ := List.exists_cons_of_ne_nil hne
    rw [hat]
    simp
  · have hBcons : ∃ x xs, B = x :: xs := by
      rw [hBg]
      obtain ⟨a, t, hat⟩ := List.exists_cons_of_ne_nil hne
      exact ⟨a, t ++ ' ' :: v, by rw [hat]; rfl⟩
    obtain ⟨x, xs, hxs⟩ := hBcons
    rw [hxs]
    show parse_ref (x :: xs) = _
    rw [← hxs, hBg]
    have hBlock : renderGroup BOOK_ENGLISH [' '] (", ".toList) (g.1, List.range' c (k + 1)) =
        englishName g.1 ++ ' ' :: v := hform
    rw [← hform]
    have hg2 : g.2 = List.range' c (k + 1) := hshape
    rw [block_pairs hb, ← hg2]

theorem chapters_to_english_render {ps : List (Nat × Nat)} (hne : ps ≠ []) :
    chapters_to_english (ps.map interchange) =
      some (pyJoin ("; ".toList)
        ((groupRuns ps).map (renderGroup BOOK_ENGLISH [' '] (", ".toList)))) := by
  obtain ⟨p, ps', hp⟩ := List.exists_cons_of_ne_nil hne
  subst hp
  unfold chapters_to_english chaptersToStr
  rw [List.map_cons]
  show (match seqParse (interchange p :: ps'.map interchange) with
    | none => none
    | some qs => some (pyJoin ("; ".toList)
        ((groupRuns qs).map (renderGroup BOOK_ENGLISH
          (if true then [' '] else []) (", ".toList))))) = _
  rw [← List.map_cons, seqParse_interchange]
  rfl

theorem parse_day_eng {ps : List (Nat × Nat)}
    (hgood : ∀ p ∈ ps, goodBook p.1 = true) (hnd : ps.Nodup) :
    parse_day_text (pyJoin ("; ".toList)
      ((groupRuns ps).map (renderGroup BOOK_ENGLISH [' '] (", ".toList)))) =
      ps.map interchange := by
  rcases hps : ps with _ | ⟨p0, ps0⟩
  · rfl
  · rw [← hps]
    have hpsne : ps ≠ [] := by rw [hps]; simp
    have hgne : groupRuns ps ≠ [] := by
      rw [hps, groupRuns_eq]
      obtain ⟨b0, c0⟩ := p0
      simp
    -- facts about every rendered block
    have hfacts : ∀ g ∈ groupRuns ps,
        (∀ ch ∈ renderGroup BOOK_ENGLISH [' '] (", ".toList) g,
          ch ≠ ';' ∧ ch ≠ '–' ∧ ch ≠ '—') ∧
        pyStrip (renderGroup BOOK_ENGLISH [' '] (", ".toList) g) =
          renderGroup BOOK_ENGLISH [' '] (", ".toList) g ∧
        renderGroup BOOK_ENGLISH [' '] (", ".toList) g ≠ [] ∧
        (match renderGroup BOOK_ENGLISH [' '] (", ".toList) g with
          | [] => ([] : List (Nat × Nat))
          | _ :: _ => parse_ref (renderGroup BOOK_ENGLISH [' '] (", ".toList) g)) =
          g.2.map (fun ch => (g.1, ch)) := by
      intro g hg
      obtain ⟨hgb, c, k, hshape⟩ := groupRuns_good hgood g hg
      exact block_facts hgb hshape
    set Ts := (groupRuns ps).map (renderGroup BOOK_ENGLISH [' '] (", ".toList)) with hTs
    have hTmem : ∀ T ∈ Ts, ∃ g ∈ groupRuns ps,
        T = renderGroup BOOK_ENGLISH [' '] (", ".toList) g := by
      intro T hT
      obtain ⟨g, hg, hTg⟩ := List.mem_map.1 hT
      exact ⟨g, hg, hTg.symm⟩
    -- the joined line contains no dashes to normalize
    have hdash : (pyJoin ("; ".toList) Ts).map dashFix = pyJoin ("; ".toList) Ts := by
      refine map_dashFix_id ?_
      intro ch hch
      rcases mem_pyJoin _ Ts hch with hs | ⟨T, hT, hchT⟩
      · rcases List.mem_cons.1 hs with rfl | hs
        · exact ⟨by decide, by decide⟩
        · rcases List.mem_cons.1 hs with rfl | hs
          · exact ⟨by decide, by decide⟩
          · cases hs
      · obtain ⟨g, hg, rfl⟩ := hTmem T hT
        have := (hfacts g hg).1 ch hchT
        exact ⟨this.2.1, this.2.2⟩
    unfold parse_day_text dayPairs
    rw [hdash]
    have hjoin : pyJoin ("; ".toList) Ts = pyJoin (';' :: [' ']) Ts := rfl
    have hsep : ∀ T ∈ Ts, ';' ∉ T := by
      intro T hT hmem
      obtain ⟨g, hg, rfl⟩ := hTmem T hT
      exact ((hfacts g hg).1 ';' hmem).1 rfl
    have hTsne : Ts ≠ [] := by
      rw [hTs]
      intro h
      exact hgne (List.map_eq_nil_iff.1 h)
    rw [hjoin, split_join Ts.length Ts le_rfl hTsne hsep]
    have hstripTs : Ts.map pyStrip = Ts := by
      have : Ts.map pyStrip = Ts.map id := by
        refine map_congr_mem Ts ?_
        intro T hT
        obtain ⟨g, hg, rfl⟩ := hTmem T hT
        exact (hfacts g hg).2.1
      rw [this, List.map_id]
    rw [hstripTs, hTs, flatMap_map_list]
    have hflat : (groupRuns ps).flatMap
        (fun g => match renderGroup BOOK_ENGLISH [' '] (", ".toList) g with
          | [] => ([] : List (Nat × Nat))
          | _ :: _ => parse_ref (renderGroup BOOK_ENGLISH [' '] (", ".toList) g)) =
        (groupRuns ps).flatMap (fun g => g.2.map (fun ch => (g.1, ch))) := by
      refine flatMap_congr_mem _ ?_
      intro g hg
      exact (hfacts g hg).2.2.2
    rw [hflat, groupRuns_flatten ps.length ps le_rfl]
    rw [foldl_dedupStep ps [] []]
    rw [dedupPairs_all_new ps [] (fun p _ h => (List.not_mem_nil p) h) hnd]
    rfl

theorem round_trip_eng {ps : List (Nat × Nat)}
    (hgood : ∀ p ∈ ps, goodBook p.1 = true) (hnd : ps.Nodup) :
    ∃ s, chapters_to_english (ps.map interchange) = some s ∧
      parse_day_text s = ps.map interchange := by
  rcases hps : ps with _ | ⟨p0, ps0⟩
  · exact ⟨[], rfl, rfl⟩
  · rw [← hps]
    refine ⟨pyJoin ("; ".toList)
      ((groupRuns ps).map (renderGroup BOOK_ENGLISH [' '] (", ".toList))), ?_, ?_⟩
    · exact chapters_to_english_render (by rw [hps]; simp)
    · exact parse_day_eng hgood hnd

/-!  ### Idempotence of stripping; whitespace-only and unmatched clauses  -/

theorem dropWhile_head_false {p : Char → Bool} :
    ∀ l : List Char, ∀ c, (l.dropWhile p).head? = some c → p c = false := by
  intro l
  induction l with
  | nil => intro c h; cases h
  | cons a t ih =>
    intro c h
    rw [List.dropWhile_cons] at h
    by_cases hp : p a
    · rw [if_pos hp] at h
      exact ih c h
    · rw [if_neg hp] at h
      simp only [List.head?_cons, Option.some.injEq] at h
      subst h
      exact Bool.not_eq_true _ ▸ (by simpa using hp)

theorem suffix_getLast? {t l : List Char} (h : t <:+ l) (hne : t ≠ []) :
    t.getLast? = l.getLast? := by
  obtain ⟨u, rfl⟩ := h
  rw [List.getLast?_append_of_ne_nil u hne]

theorem pyStrip_idem (s : List Char) : pyStrip (pyStrip s) = pyStrip s := by
  refine pyStrip_no_ws ?_ ?_
  · intro c hc
    unfold pyStrip at hc
    rw [List.head?_reverse] at hc
    rcases hrev : (s.dropWhile pyIsSpace).reverse.dropWhile pyIsSpace with _ | ⟨a, t⟩
    · rw [hrev] at hc
      cases hc
    · rw [hrev] at hc
      rw [suffix_getLast? (hrev ▸ List.dropWhile_suffix pyIsSpace) (by simp)] at hc
      rw [List.getLast?_reverse] at hc
      exact dropWhile_head_false s c hc
  · intro c hc
    unfold pyStrip at hc
    rw [List.getLast?_reverse] at hc
    exact dropWhile_head_false _ c hc

theorem space_facts {c : Char} (h : pyIsSpace c = true) :
    c ≠ ',' ∧ c ≠ ';' ∧ Char.isDigit c = false := by
  simp only [pyIsSpace, Bool.or_eq_true, decide_eq_true_eq] at h
  rcases h with ((((rfl | rfl) | rfl) | rfl) | rfl) | rfl <;> exact ⟨by decide, by decide, by decide⟩

theorem andTest_ws {t : List Char} (h : ∀ c ∈ t, pyIsSpace c = true) :
    andTest t = false := by
  match t with
  | [] => rfl
  | [c1] => rfl
  | [c1, c2] => rfl
  | [c1, c2, c3] => rfl
  | [c1, c2, c3, c4] => rfl
  | c1 :: c2 :: c3 :: c4 :: c5 :: rest =>
    cases hA : andTest (c1 :: c2 :: c3 :: c4 :: c5 :: rest)
    · rfl
    · have hp := (andTest_parts hA).2.1
      have hc2 := h c2 (by simp)
      simp only [pyIsSpace, Bool.or_eq_true, decide_eq_true_eq] at hc2
      rcases hc2 with ((((rfl | rfl) | rfl) | rfl) | rfl) | rfl <;> cases hp

theorem pyStrip_all_ws {s : List Char} (h : ∀ c ∈ s, pyIsSpace c = true) :
    pyStrip s = [] := by
  unfold pyStrip
  rw [List.dropWhile_eq_nil_iff.2 (fun x hx => h x hx)]
  rfl

theorem parse_ref_ws {s : List Char} (h : ∀ c ∈ s, pyIsSpace c = true) :
    parse_ref s = [] := by
  unfold parse_ref
  have hclean : noDelimB s = true := by
    refine noDelimB_of ?_ ?_
    · exact fun c hc => ⟨(space_facts (h c hc)).1, (space_facts (h c hc)).2.1⟩
    · intro t ht
      exact andTest_ws (fun c hc => h c (ht.subset hc))
  rw [splitRefs_clean hclean]
  simp only [List.flatMap_cons, List.flatMap_nil, List.append_nil]
  unfold refPairs
  rw [pyStrip_all_ws h]

theorem refPairs_no_book {part : List Char}
    (h : ∀ n ∈ SORTED_NAMES, nameMatches (pyStrip part) n = false) :
    refPairs part = [] := by
  unfold refPairs
  rcases hs : pyStrip part with _ | ⟨a, t⟩
  · rfl
  · have hfb : find_book (a :: t) = (none, a :: t) := by
      unfold find_book
      rw [← hs, pyStrip_idem, hs]
      exact findBookAux_none SORTED_NAMES (hs ▸ h)
    dsimp only
    rw [hfb]

theorem refPairs_bad_chapter {part : List Char} {b : Nat} {rest0 : List Char}
    (hne : pyStrip part ≠ [])
    (hfb : find_book (pyStrip part) = (some b, rest0))
    (hrestne : pyStrip rest0 ≠ [])
    (hmc : matchChapter (pyStrip rest0) = none) :
    refPairs part = [] := by
  unfold refPairs
  obtain ⟨a, t, hat⟩ := List.exists_cons_of_ne_nil hne
  rw [hat]
  dsimp only
  rw [hat] at hfb
  rw [hfb]
  dsimp only
  obtain ⟨r, rs, hrs⟩ := List.exists_cons_of_ne_nil hrestne
  rw [hrs]
  dsimp only
  rw [hrs] at hmc
  rw [hmc]

theorem refPairs_found {part : List Char} {b A B : Nat} {rest0 : List Char}
    (hne : pyStrip part ≠ [])
    (hfb : find_book (pyStrip part) = (some b, rest0))
    (hrestne : pyStrip rest0 ≠ [])
    (hmc : matchChapter (pyStrip rest0) = some (A, B)) :
    refPairs part = (List.range' A (B + 1 - A)).map (fun ch => (b, ch)) := by
  unfold refPairs
  obtain ⟨a, t, hat⟩ := List.exists_cons_of_ne_nil hne
  rw [hat]
  dsimp only
  rw [hat] at hfb
  rw [hfb]
  dsimp only
  obtain ⟨r, rs, hrs⟩ := List.exists_cons_of_ne_nil hrestne
  rw [hrs]
  dsimp only
  rw [hrs] at hmc
  rw [hmc]

theorem findBookAux_eq_find? :
    ∀ (names : List (List Char)) (s : List Char),
      findBookAux names s =
        match names.find? (fun n => nameMatches s n) with
        | none => (none, s)
        | some n => (dictGet BOOK_INDEX n, pyStrip (s.drop n.length)) := by
  intro names
  induction names with
  | nil => intro s; rfl
  | cons n rest ih =>
    intro s
    rw [findBookAux]
    cases hm : nameMatches s n with
    | false =>
      rw [if_neg (by simp), ih s, List.find?_cons_of_neg _ (by simp [hm])]
    | true =>
      rw [if_pos rfl, List.find?_cons_of_pos _ hm]

theorem nameMatches_eq_lower (s n : List Char) :
    nameMatches s n = (pyLower n).isPrefixOf (pyLower s) := by
  cases hm : nameMatches s n with
  | true => exact (isPrefixOf_eq.2 (nameMatches_lower hm)).symm
  | false =>
    cases hl : (pyLower n).isPrefixOf (pyLower s) with
    | false => rfl
    | true =>
      exfalso
      rw [nameMatches] at hm
      simp [hl] at hm

/-!  ### First-occurrence order of the dedup loop  -/

theorem idxOf_cons_self (p : Nat × Nat) (l : List (Nat × Nat)) :
    idxOf p (p :: l) = 0 := by
  simp [idxOf]

theorem idxOf_cons_ne {q p : Nat × Nat} (l : List (Nat × Nat)) (h : q ≠ p) :
    idxOf p (q :: l) = idxOf p l + 1 := by
  simp [idxOf, h]

theorem dedupPairs_idxOf :
    ∀ (ps seen : List (Nat × Nat)) (p q : Nat × Nat),
      p ∈ dedupPairs seen ps → q ∈ dedupPairs seen ps →
      (idxOf p (dedupPairs seen ps) < idxOf q (dedupPairs seen ps) ↔
        idxOf p ps < idxOf q ps) := by
  intro ps
  induction ps with
  | nil =>
    intro seen p q hp
    rw [show dedupPairs seen [] = [] from rfl] at hp
    cases hp
  | cons x ps ih =>
    intro seen p q hp hq
    rw [dedupPairs] at hp hq ⊢
    by_cases hx : x ∈ seen
    · rw [if_pos hx] at hp hq ⊢
      have hpx : x ≠ p := fun he => ((mem_dedupPairs ps seen p).1 hp).2 (he ▸ hx)
      have hqx : x ≠ q := fun he => ((mem_dedupPairs ps seen q).1 hq).2 (he ▸ hx)
      rw [idxOf_cons_ne ps hpx, idxOf_cons_ne ps hqx]
      rw [Nat.add_lt_add_iff_right]
      exact ih seen p q hp hq
    · rw [if_neg hx] at hp hq ⊢
      by_cases hpx : p = x
      · subst hpx
        rw [idxOf_cons_self, idxOf_cons_self]
        by_cases hqp : q = p
        · subst hqp
          rw [idxOf_cons_self, idxOf_cons_self]
        · rw [idxOf_cons_ne _ (fun he => hqp he.symm),
            idxOf_cons_ne _ (fun he => hqp he.symm)]
          simp
      · by_cases hqx : q = x
        · subst hqx
          rw [idxOf_cons_self, idxOf_cons_self,
            idxOf_cons_ne _ (fun he => hpx he.symm),
            idxOf_cons_ne _ (fun he => hpx he.symm)]
          simp
        · have hp2 : p ∈ dedupPairs (x :: seen) ps := by
            rcases List.mem_cons.1 hp with h | h
            · exact absurd h hpx
            · exact h
          have hq2 : q ∈ dedupPairs (x :: seen) ps := by
            rcases List.mem_cons.1 hq with h | h
            · exact absurd h hqx
            · exact h
          rw [idxOf_cons_ne _ (fun he => hpx he.symm),
            idxOf_cons_ne _ (fun he => hqx he.symm),
            idxOf_cons_ne _ (fun he => hpx he.symm),
            idxOf_cons_ne _ (fun he => hqx he.symm)]
          rw [Nat.add_lt_add_iff_right, Nat.add_lt_add_iff_right]
          exact ih (x :: seen) p q hp2 hq2

theorem parse_day_text_eq_dedup (text : List Char) :
    parse_day_text text = (dedupPairs [] (dayPairs text)).map interchange := by
  unfold parse_day_text
  rw [foldl_dedupStep]
  rfl

/-!  ### Facts about the book index  -/

theorem tables_check : ((List.range' 1 66).all (fun b =>
    (b < BOOK_ENGLISH.length) && !(BOOK_ENGLISH.getD b []).isEmpty &&
    ((b < BOOK_CHINESE.length) && !(BOOK_CHINESE.getD b []).isEmpty) &&
    ((b < BOOK_CHINESE_TW.length) && !(BOOK_CHINESE_TW.getD b []).isEmpty))) = true := by
  rfl

theorem book_index_values :
    (BOOK_INDEX.all (fun e => (1 ≤ e.2) && (e.2 ≤ 66) && !(e.2 == 56))) = true := by rfl

theorem book_index_keys_nodup : (BOOK_INDEX.map (·.1)).Nodup := by decide

theorem dictGet_value_mem {k : List Char} {v : Nat}
    (h : dictGet BOOK_INDEX k = some v) : ∃ e ∈ BOOK_INDEX, e.2 = v := by
  unfold dictGet at h
  obtain ⟨e, he, hev⟩ := Option.map_eq_some'.1 h
  exact ⟨e, List.mem_of_find?_eq_some he, hev⟩

theorem dictGet_not_56 : ∀ name, dictGet BOOK_INDEX name ≠ some 56 := by
  intro name h
  obtain ⟨e, he, hev⟩ := dictGet_value_mem h
  have := (List.all_eq_true.1 book_index_values) e he
  simp only [Bool.and_eq_true, Bool.not_eq_true', beq_eq_false_iff_ne, ne_eq] at this
  exact this.2 hev

theorem goodBook_intro {b : Nat} (h1 : 1 ≤ b) (h2 : b ≤ 66) (h3 : b ≠ 36)
    (h4 : b ≠ 38) (h5 : b ≠ 56) : goodBook b = true := by
  simp only [goodBook, Bool.and_eq_true, decide_eq_true_eq, Bool.not_eq_true',
    beq_eq_false_iff_ne, ne_eq]
  exact ⟨⟨⟨⟨h1, h2⟩, h3⟩, h4⟩, h5⟩

/-!  ### Descending length order of the name list  -/

theorem chain'_le_of_all :
    ∀ l : List (List Char),
      ((l.zip l.tail).all (fun ab => decide (ab.2.length ≤ ab.1.length))) = true →
      List.Chain' (fun a b : List Char => b.length ≤ a.length) l := by
  intro l
  induction l with
  | nil => intro _; exact List.chain'_nil
  | cons a t ih =>
    intro h
    cases t with
    | nil => exact List.chain'_singleton a
    | cons b t2 =>
      rw [List.chain'_cons]
      rw [show (a :: b :: t2).zip (a :: b :: t2).tail =
        (a, b) :: ((b :: t2).zip (b :: t2).tail) from rfl] at h
      rw [List.all_cons, Bool.and_eq_true] at h
      exact ⟨by simpa using h.1, ih h.2⟩

theorem sorted_names_desc :
    List.Chain' (fun a b : List Char => b.length ≤ a.length) SORTED_NAMES :=
  chain'_le_of_all SORTED_NAMES (by rfl)

theorem sorted_names_perm : SORTED_NAMES.Perm (BOOK_INDEX.map (·.1)) := by decide

/-!  ## Claim theorems  -/

/-- C1: the claimed round trip parse_day_text ∘ chapters_to_english = id on
ordered, deduplicated chapter lists fails for the books whose display name
is missing from `BOOK_INDEX`: `["56:1"]` renders to "Titus 1", which parses
back to `[]`.  For every list of distinct pairs whose books avoid 36
(Zephaniah), 38 (Zechariah) and 56 (Titus) — `goodBook` — the round trip
holds exactly, and the Genesis/Exodus scenario of the claim holds. -/
theorem C1_round_trip :
    chapters_to_english ["56:1".toList] = some ("Titus 1".toList) ∧
    parse_day_text ("Titus 1".toList) = [] ∧
    ([] : List (List Char)) ≠ ["56:1".toList] ∧
    parse_day_text ("Genesis 1-3; Exodus 4-6".toList) =
      ["1:1", "1:2", "1:3", "2:4", "2:5", "2:6"].map String.toList ∧
    chapters_to_english (["1:1", "1:2", "1:3", "2:4", "2:5", "2:6"].map String.toList) =
      some ("Genesis 1-3; Exodus 4-6".toList) ∧
    ∀ ps : List (Nat × Nat), (∀ p ∈ ps, goodBook p.1 = true ∧ 1 ≤ p.2) → ps.Nodup →
      ∃ s, chapters_to_english (ps.map interchange) = some s ∧
        parse_day_text s = ps.map interchange := by
  refine ⟨by decide, by decide, by decide, by decide, by decide, ?_⟩
  intro ps h hnd
  exact round_trip_eng (fun p hp => (h p hp).1) hnd

theorem C1_round_trip_witness :
    ∃ s, chapters_to_english
        ([(1, 1), (1, 2), (1, 3), (2, 4), (2, 5), (2, 6)].map interchange) = some s ∧
      parse_day_text s =
        [(1, 1), (1, 2), (1, 3), (2, 4), (2, 5), (2, 6)].map interchange :=
  C1_round_trip.2.2.2.2.2 [(1, 1), (1, 2), (1, 3), (2, 4), (2, 5), (2, 6)]
    (by decide) (by decide)

/-- C2: the three locale display tables are complete for books 1-66 and
every name form maps to exactly one book number in [1,66] (keys are unique,
values in range), but the reverse index is not complete: books other than
56 have at least one recognized form, while no name form at all maps to 56
(Titus), contradicting the claimed bidirectional completeness. -/
theorem C2_book_table :
    (∀ b, 1 ≤ b → b ≤ 66 →
      b < BOOK_ENGLISH.length ∧ BOOK_ENGLISH.getD b [] ≠ [] ∧
      b < BOOK_CHINESE.length ∧ BOOK_CHINESE.getD b [] ≠ [] ∧
      b < BOOK_CHINESE_TW.length ∧ BOOK_CHINESE_TW.getD b [] ≠ []) ∧
    (∀ e ∈ BOOK_INDEX, 1 ≤ e.2 ∧ e.2 ≤ 66) ∧
    (BOOK_INDEX.map (·.1)).Nodup ∧
    (∀ b, 1 ≤ b → b ≤ 66 → b ≠ 56 → ∃ name, dictGet BOOK_INDEX name = some b) ∧
    (∀ name, dictGet BOOK_INDEX name ≠ some 56) := by
  refine ⟨?_, ?_, book_index_keys_nodup, ?_, dictGet_not_56⟩
  · intro b h1 h2
    have h := (List.all_eq_true.1 tables_check) b (mem_all_range h1 h2)
    simp only [Bool.and_eq_true, decide_eq_true_eq, Bool.not_eq_true',
      List.isEmpty_eq_false] at h
    exact ⟨h.1.1.1, h.1.1.2, h.1.2.1, h.1.2.2, h.2.1, h.2.2⟩
  · intro e he
    have h := (List.all_eq_true.1 book_index_values) e he
    simp only [Bool.and_eq_true, decide_eq_true_eq] at h
    exact ⟨h.1.1, h.1.2⟩
  · intro b h1 h2 h56
    by_cases h36 : b = 36
    · exact ⟨"Zeph".toList, by rw [h36]; rfl⟩
    · by_cases h38 : b = 38
      · exact ⟨"Zech".toList, by rw [h38]; rfl⟩
      · exact ⟨englishName b,
          (books_check_at (goodBook_intro h1 h2 h36 h38 h56)).2.1⟩

theorem C2_book_table_witness :
    (19 < BOOK_ENGLISH.length ∧ BOOK_ENGLISH.getD 19 [] ≠ [] ∧
      19 < BOOK_CHINESE.length ∧ BOOK_CHINESE.getD 19 [] ≠ [] ∧
      19 < BOOK_CHINESE_TW.length ∧ BOOK_CHINESE_TW.getD 19 [] ≠ []) ∧
    (∃ name, dictGet BOOK_INDEX name = some 19) :=
  ⟨C2_book_table.1 19 (by decide) (by decide),
    C2_book_table.2.2.2.1 19 (by decide) (by decide) (by decide)⟩

/-- C3: for every input, the normalizer's output is the interchange
rendering of the pair-level first-occurrence dedup of the scanned pairs: it
contains no repeated interchange string, a pair appears in the output
exactly when it was scanned, and the relative order of two output pairs is
the order of their first occurrences in the scan (a pair seen again later
is dropped, not moved). -/
theorem C3_dedup_order (text : List Char) :
    parse_day_text text = (dedupPairs [] (dayPairs text)).map interchange ∧
    (parse_day_text text).Nodup ∧
    (∀ p, interchange p ∈ parse_day_text text ↔ p ∈ dayPairs text) ∧
    (∀ p q, p ∈ dedupPairs [] (dayPairs text) → q ∈ dedupPairs [] (dayPairs text) →
      (idxOf p (dedupPairs [] (dayPairs text)) < idxOf q (dedupPairs [] (dayPairs text)) ↔
        idxOf p (dayPairs text) < idxOf q (dayPairs text))) := by
  refine ⟨parse_day_text_eq_dedup text, ?_, ?_, ?_⟩
  · rw [parse_day_text_eq_dedup text]
    exact (dedupPairs_nodup (dayPairs text) []).map interchange_inj
  · intro p
    rw [parse_day_text_eq_dedup text,
      List.mem_map_of_injective interchange_inj,
      mem_dedupPairs (dayPairs text) [] p]
    simp
  · exact dedupPairs_idxOf (dayPairs text) []

theorem C3_dedup_order_witness :
    (parse_day_text ("Genesis 1; Genesis 1-2".toList)).Nodup :=
  (C3_dedup_order ("Genesis 1; Genesis 1-2".toList)).2.1

/-- C4: the formatter's left-to-right greedy grouping partitions the input
pairs exactly (flattening the runs gives the input back), every run is a
block of consecutive chapters of a single book, adjacent runs never
continue each other (a run never absorbs a non-consecutive chapter and
never crosses a book boundary), and the two locale examples of the claim
format as stated. -/
theorem C4_formatter_grouping :
    (∀ ps : List (Nat × Nat),
      (groupRuns ps).flatMap (fun g => g.2.map (fun ch => (g.1, ch))) = ps ∧
      (∀ g ∈ groupRuns ps, ∃ c k, g.2 = List.range' c (k + 1)) ∧
      List.Chain'
        (fun g h => ∀ x y, g.2.getLast? = some x → h.2.head? = some y →
          ¬(h.1 = g.1 ∧ y = x + 1)) (groupRuns ps)) ∧
    chapters_to_english (["1:1", "1:2", "1:3", "1:5"].map String.toList) =
      some ("Genesis 1-3; Genesis 5".toList) ∧
    chapters_to_chinese (["1:1", "1:2", "1:3", "1:5"].map String.toList) BOOK_CHINESE =
      some ("创世记1-3；创世记5".toList) := by
  refine ⟨?_, by decide, by decide⟩
  intro ps
  exact ⟨groupRuns_flatten ps.length ps le_rfl,
    groupRuns_shape ps.length ps le_rfl,
    groupRuns_chain ps.length ps le_rfl⟩

theorem C4_formatter_grouping_witness :
    (groupRuns [(1, 1), (1, 2), (1, 3), (1, 5)]).flatMap
      (fun g => g.2.map (fun ch => (g.1, ch))) = [(1, 1), (1, 2), (1, 3), (1, 5)] :=
  (C4_formatter_grouping.1 [(1, 1), (1, 2), (1, 3), (1, 5)]).1

/-- C5: the book matcher strips its input, scans the name forms in
descending order of length (the sorted list is ordered by length and is a
permutation of the index keys), returns the first form whose
case-insensitive prefix test succeeds together with the remainder (the
match test is exactly the lowercased prefix test); "1 John 3" resolves to
book 62 with remainder "3" and "John 3" to book 43. -/
theorem C5_find_book_longest :
    (∀ s, find_book s =
      match SORTED_NAMES.find? (fun n => nameMatches (pyStrip s) n) with
      | none => (none, pyStrip s)
      | some n => (dictGet BOOK_INDEX n, pyStrip ((pyStrip s).drop n.length))) ∧
    (∀ s n, nameMatches s n = (pyLower n).isPrefixOf (pyLower s)) ∧
    List.Chain' (fun a b : List Char => b.length ≤ a.length) SORTED_NAMES ∧
    SORTED_NAMES.Perm (BOOK_INDEX.map (·.1)) ∧
    find_book ("1 John 3".toList) = (some 62, "3".toList) ∧
    find_book ("John 3".toList) = (some 43, "3".toList) := by
  refine ⟨?_, nameMatches_eq_lower, sorted_names_desc, sorted_names_perm,
    by decide, by decide⟩
  intro s
  exact findBookAux_eq_find? SORTED_NAMES (pyStrip s)

/-- C6: whenever the matcher recognizes a book and the stripped remainder
matches the chapter pattern with start A and (defaulted) end B, A ≤ B, the
sub-clause contributes exactly one pair per chapter of [A, B] in ascending
order; a colon-introduced verse specification after the start chapter is
ignored (the match yields (A, A)); "Genesis 1-3" expands to chapters 1-3 of
book 1 and "Psalm 119:1-88" to the single pair (19, 119). -/
theorem C6_range_expansion :
    (∀ (part : List Char) (b A B : Nat) (rest0 : List Char),
      pyStrip part ≠ [] → find_book (pyStrip part) = (some b, rest0) →
      pyStrip rest0 ≠ [] → matchChapter (pyStrip rest0) = some (A, B) → A ≤ B →
      refPairs part = (List.range' A (B + 1 - A)).map (fun ch => (b, ch))) ∧
    (∀ (A : Nat) (junk : List Char),
      matchChapter (natChars A ++ ':' :: junk) = some (A, A)) ∧
    parse_ref ("Genesis 1-3".toList) = [(1, 1), (1, 2), (1, 3)] ∧
    parse_ref ("Psalm 119:1-88".toList) = [(19, 119)] := by
  refine ⟨?_, ?_, by decide, by decide⟩
  · intro part b A B rest0 hne hfb hrne hmc _
    exact refPairs_found hne hfb hrne hmc
  · intro A junk
    exact matchChapter_stop A (by decide) (by decide) (by decide)

theorem C6_range_expansion_witness :
    refPairs ("Genesis 1-3".toList) =
      (List.range' 1 (3 + 1 - 1)).map (fun ch => (1, ch)) :=
  C6_range_expansion.1 ("Genesis 1-3".toList) 1 1 3 ("1-3".toList)
    (by decide) (by decide) (by decide) (by decide) (by decide)

/-- C7 counterexample: the range separator class of the regex in parse_ref
holds only the hyphen and the en-dash, so the em-dash form "Genesis 1—3"
yields only the start chapter, not the full range claimed. -/
theorem C7_em_dash_counterexample :
    parse_ref ("Genesis 1—3".toList) = [(1, 1)] ∧
    parse_ref ("Genesis 1—3".toList) ≠ [(1, 1), (1, 2), (1, 3)] :=
  ⟨by decide, by decide⟩

/-- C7 (amended): parse_ref accepts the hyphen or the en-dash as range
separator with identical results; the em-dash is not recognized there, so
"A—B" yields only chapter A — em-dashes are normalized to hyphens one layer
up, in parse_day_text, where "Genesis 1—3" does expand fully. -/
theorem C7_dash_separators :
    (∀ A B : Nat, matchChapter (natChars A ++ '–' :: natChars B) =
      matchChapter (natChars A ++ '-' :: natChars B)) ∧
    parse_ref ("Genesis 1–3".toList) = [(1, 1), (1, 2), (1, 3)] ∧
    (∀ (A : Nat) (junk : List Char),
      matchChapter (natChars A ++ '—' :: junk) = some (A, A)) ∧
    parse_ref ("Genesis 1—3".toList) = [(1, 1)] ∧
    parse_day_text ("Genesis 1—3".toList) = ["1:1", "1:2", "1:3"].map String.toList := by
  refine ⟨?_, by decide, ?_, by decide, by decide⟩
  · intro A B
    rw [matchChapter_dash A B (Or.inr rfl), matchChapter_dash A B (Or.inl rfl)]
  · intro A junk
    exact matchChapter_stop A (by decide) (by decide) (by decide)

/-- C8 counterexample: on input " zzz " no name form matches, and the
matcher returns the stripped text "zzz", not the original input with its
surrounding whitespace, refuting the claim as stated. -/
theorem C8_strip_counterexample :
    find_book (" zzz ".toList) = (none, "zzz".toList) ∧
    ("zzz".toList : List Char) ≠ " zzz ".toList :=
  ⟨by decide, by decide⟩

/-- C8 (amended): for every input on which no known name form matches the
stripped text, find_book returns none together with the input stripped of
leading and trailing whitespace (which equals the original input exactly
when the input carries no surrounding whitespace). -/
theorem C8_no_match :
    ∀ s : List Char, (∀ n ∈ SORTED_NAMES, nameMatches (pyStrip s) n = false) →
      find_book s = (none, pyStrip s) := by
  intro s h
  unfold find_book
  exact findBookAux_none SORTED_NAMES h

theorem C8_no_match_witness :
    find_book (" zzz ".toList) = (none, pyStrip (" zzz ".toList)) :=
  C8_no_match (" zzz ".toList) (by decide)

/-- C9: parse_ref is total and the error cases contribute nothing: a
sub-clause whose stripped text matches no name form yields no pairs, a
recognized book followed by a non-empty remainder that fails the chapter
pattern yields no pairs, whitespace-only (or empty) input yields the empty
list, and "Frobnicate 9" parses to []. -/
theorem C9_error_handling :
    (∀ part : List Char, (∀ n ∈ SORTED_NAMES, nameMatches (pyStrip part) n = false) →
      refPairs part = []) ∧
    (∀ (part : List Char) (b : Nat) (rest0 : List Char),
      pyStrip part ≠ [] → find_book (pyStrip part) = (some b, rest0) →
      pyStrip rest0 ≠ [] → matchChapter (pyStrip rest0) = none →
      refPairs part = []) ∧
    (∀ s : List Char, (∀ c ∈ s, pyIsSpace c = true) → parse_ref s = []) ∧
    parse_ref ("Frobnicate 9".toList) = [] := by
  refine ⟨?_, ?_, ?_, by decide⟩
  · intro part h
    exact refPairs_no_book h
  · intro part b rest0 hne hfb hrne hmc
    exact refPairs_bad_chapter hne hfb hrne hmc
  · intro s h
    exact parse_ref_ws h

theorem C9_error_handling_witness :
    refPairs ("Frobnicate 9".toList) = [] ∧ parse_ref ("   ".toList) = [] :=
  ⟨C9_error_handling.1 ("Frobnicate 9".toList) (by decide),
    C9_error_handling.2.2.1 ("   ".toList) (by decide)⟩

/-- C10: a recognized book followed by a reversed range A-B with A > B
contributes no pairs at all — range(A, B+1) is empty — and in particular
"Genesis 5-3" parses to []. -/
theorem C10_reversed_range :
    (∀ (part : List Char) (b A B : Nat) (rest0 : List Char),
      pyStrip part ≠ [] → find_book (pyStrip part) = (some b, rest0) →
      pyStrip rest0 ≠ [] → matchChapter (pyStrip rest0) = some (A, B) → B < A →
      refPairs part = []) ∧
    parse_ref ("Genesis 5-3".toList) = [] := by
  refine ⟨?_, by decide⟩
  intro part b A B rest0 hne hfb hrne hmc hBA
  rw [refPairs_found hne hfb hrne hmc]
  rw [show B + 1 - A = 0 by omega]
  rfl

theorem C10_reversed_range_witness :
    refPairs ("Genesis 5-3".toList) = [] :=
  C10_reversed_range.1 ("Genesis 5-3".toList) 1 5 3 ("5-3".toList)
    (by decide) (by decide) (by decide) (by decide) (by decide)

end PlanUtils
